import Mathlib

/-!
Verification of the `ReStackTrie` streaming Merkle-Patricia trie builder
(`trie/stacktrie.go`) against its natural-language specification.

Bytes are modelled as `Nat` values below 256 in `List Nat`; all Go `byte`
arithmetic is taken modulo 256 where the source can overflow.  The Keccak-256
sponge (the external `golang.org/x/crypto/sha3` legacy Keccak dependency) is
embedded directly as a pure function on byte lists.
-/

set_option maxRecDepth 100000

namespace StackTrie


/-! ## Keccak-256 (legacy padding 0x01), the hash used by the hasher -/

def mask64 : Nat := 18446744073709551616

def w64 (x : Nat) : Nat := x % mask64

def rotl64 (x n : Nat) : Nat :=
  w64 ((x <<< (n % 64)) ||| ((x % mask64) >>> (64 - n % 64)))

def keccakRC : List Nat :=
  [1, 32898, 9223372036854808714,
   9223372039002292224, 32907, 2147483649,
   9223372039002292353, 9223372036854808585, 138,
   136, 2147516425, 2147483658,
   2147516555, 9223372036854775947, 9223372036854808713,
   9223372036854808579, 9223372036854808578, 9223372036854775936,
   32778, 9223372039002259466, 9223372039002292353,
   9223372036854808704, 2147483649, 9223372039002292232]

/-- The rho rotation offsets, generated by the standard (x,y)-walk: starting
from lane (1,0), step t maps (x,y) to (y, 2x+3y mod 5) and assigns rotation
(t+1)(t+2)/2 mod 64; lane (0,0) keeps rotation 0.  Indexed flat by x + 5y. -/
def keccakRotPairs : List (Nat × Nat) :=
  ((List.range 24).foldl (fun (st : (Nat × Nat) × List (Nat × Nat)) t =>
    let xy := st.1
    ((xy.2, (2 * xy.1 + 3 * xy.2) % 5),
     (xy.1 + 5 * xy.2, ((t + 1) * (t + 2) / 2) % 64) :: st.2))
    ((1, 0), [(0, 0)])).2

def keccakRot : List Nat :=
  (List.range 25).map (fun i =>
    ((keccakRotPairs.find? (fun p => p.1 == i)).map Prod.snd).getD 0)

def keccakTheta (A : List Nat) : List Nat :=
  let C := (List.range 5).map (fun x =>
    (A.getD x 0) ^^^ (A.getD (x + 5) 0) ^^^ (A.getD (x + 10) 0) ^^^
    (A.getD (x + 15) 0) ^^^ (A.getD (x + 20) 0))
  let D := (List.range 5).map (fun x =>
    (C.getD ((x + 4) % 5) 0) ^^^ rotl64 (C.getD ((x + 1) % 5) 0) 1)
  (List.range 25).map (fun i => (A.getD i 0) ^^^ (D.getD (i % 5) 0))

def keccakRhoPi (A : List Nat) : List Nat :=
  (List.range 25).foldl (fun B i =>
    let x := i % 5
    let y := i / 5
    B.set (y + 5 * ((2 * x + 3 * y) % 5)) (rotl64 (A.getD i 0) (keccakRot.getD i 0)))
    (List.replicate 25 0)

def keccakChi (B : List Nat) : List Nat :=
  (List.range 25).map (fun i =>
    let x := i % 5
    let b := 5 * (i / 5)
    (B.getD i 0) ^^^
      (((B.getD ((x + 1) % 5 + b) 0) ^^^ (mask64 - 1)) &&& (B.getD ((x + 2) % 5 + b) 0)))

def keccakRound (A : List Nat) (rc : Nat) : List Nat :=
  let A := keccakChi (keccakRhoPi (keccakTheta A))
  A.set 0 ((A.getD 0 0) ^^^ rc)

def keccakF1600 (A : List Nat) : List Nat :=
  keccakRC.foldl keccakRound A

/-- Little-endian 64-bit word taken from bytes `8*i .. 8*i+7` of a block. -/
def keccakWordOf (blk : List Nat) (i : Nat) : Nat :=
  (List.range 8).foldl (fun acc j => acc ||| ((blk.getD (8 * i + j) 0) <<< (8 * j))) 0

def keccakAbsorbBlock (A : List Nat) (blk : List Nat) : List Nat :=
  keccakF1600 ((List.range 25).map (fun i =>
    if i < 17 then (A.getD i 0) ^^^ keccakWordOf blk i else A.getD i 0))

/-- Legacy Keccak multi-rate padding: append `0x01`, zero-fill, set the final
bit `0x80` in the last byte of the block (`0x81` when only one byte is free). -/
def keccakPad (msg : List Nat) : List Nat :=
  let padlen := 136 - msg.length % 136
  if padlen == 1 then msg ++ [0x81]
  else msg ++ [0x01] ++ List.replicate (padlen - 2) 0 ++ [0x80]

def keccak256 (msg : List Nat) : List Nat :=
  let p := keccakPad msg
  let blocks := p.length / 136
  let A := (List.range blocks).foldl
    (fun A k => keccakAbsorbBlock A ((p.drop (136 * k)).take 136))
    (List.replicate 25 0)
  (List.range 32).map (fun i => ((A.getD (i / 8) 0) >>> (8 * (i % 8))) % 256)

/-! ## Code not under src/, modelled from the spec -/

/-- Modelled from the spec: `keybytesToHex` of the trie package is not under
src/.  Spec §3: a byte key is expanded to nibbles, high nibble of each byte
first, then the low nibble, terminated by the sentinel nibble 16. -/
def keybytesToHex (b : List Nat) : List Nat :=
  ((b.map (fun x => [x / 16, x % 16])).flatten) ++ [16]

/-- Modelled from the spec: the `emptyRoot` constant of the trie package is not
under src/.  Spec §4.3: the well-known Keccak-256 of the RLP empty string,
`56e81f171bcc55a6ff8345e692c0f86e5b48e01b996cadc001622fb5e363b421`. -/
def emptyRoot : List Nat :=
  [0x56, 0xe8, 0x1f, 0x17, 0x1b, 0xcc, 0x55, 0xa6, 0xff, 0x83, 0x45, 0xe6,
   0x92, 0xc0, 0xf8, 0x6e, 0x5b, 0x48, 0xe0, 0x1b, 0x99, 0x6c, 0xad, 0xc0,
   0x01, 0x62, 0x2f, 0xb5, 0xe3, 0x63, 0xb4, 0x21]

/-! ## The ReStackTrie node type (`trie/stacktrie.go`) -/

/-- A `ReStackTrie` node: node type tag, value, key chunk, offset of the key
chunk inside a full key, and the 16 children slots. -/
inductive ReStackTrie : Type where
  | mk (nodeType : Nat) (val : List Nat) (key : List Nat) (keyOffset : Nat)
       (children : List (Option ReStackTrie)) : ReStackTrie

namespace ReStackTrie

def nodeType : ReStackTrie → Nat
  | .mk t _ _ _ _ => t

def val : ReStackTrie → List Nat
  | .mk _ v _ _ _ => v

def key : ReStackTrie → List Nat
  | .mk _ _ k _ _ => k

def keyOffset : ReStackTrie → Nat
  | .mk _ _ _ o _ => o

def children : ReStackTrie → List (Option ReStackTrie)
  | .mk _ _ _ _ c => c

def withKeyOffset : ReStackTrie → Nat → ReStackTrie
  | .mk t v k _ c, o => .mk t v k o c

def withChildren : ReStackTrie → List (Option ReStackTrie) → ReStackTrie
  | .mk t v k o _, c => .mk t v k o c

end ReStackTrie


/-- List all values that ReStackTrie#nodeType can hold. -/
def branchNode : Nat := 0

def extNode : Nat := 1

def leafNode : Nat := 2

def emptyNode : Nat := 3

def hashedNode : Nat := 4

def nilChildren : List (Option ReStackTrie) := List.replicate 16 none

/-- `NewReStackTrie` allocates and initializes an empty trie. -/
def NewReStackTrie : ReStackTrie := .mk emptyNode [] [] 0 nilChildren

/-- Child slot access; Go `st.children[i]` on the 16-slot array. -/
def childAt (ch : List (Option ReStackTrie)) (i : Nat) : Option ReStackTrie :=
  ch.getD i none

/-- Error/abort outcomes of the Go code: the three diagnostic panics of
`insert`/`TryUpdate`, the `hash` diagnostic panic, the Go runtime panics
(index out of range, nil dereference), and exhaustion of the model's
recursion fuel (which does not correspond to any Go behaviour). -/
inductive Err : Type where
  | deletionNotSupported   -- panic("deletion not supported")
  | insertIntoHash         -- panic("trying to insert into hash")
  | insertIntoExistingKey  -- panic("Trying to insert into existing key")
  | invalidType            -- panic("invalid type")
  | invalidNodeType        -- panic("Invalid node type") in hash
  | indexOutOfRange        -- Go runtime: index out of range
  | nilChild               -- Go runtime: nil pointer dereference
  | outOfFuel              -- model artifact: recursion fuel exhausted
  deriving DecidableEq, Repr

deriving instance DecidableEq for Except

/-- Helper loop of `getDiffIndex`: first index at which `st.key` (walked
structurally, with `i` the running index) and the chunk of `key` starting at
`off` differ.  Indexing `key` past its end is a Go runtime panic. -/
def getDiffIndexAux (keyArg : List Nat) (off : Nat) : List Nat → Nat → Except Err Nat
  | [], i => .ok i
  | s :: rest, i =>
    match keyArg.get? (off + i) with
    | none => .error .indexOutOfRange
    | some v => if s == v then getDiffIndexAux keyArg off rest (i + 1) else .ok i

def getDiffIndex (st : ReStackTrie) (keyArg : List Nat) : Except Err Nat :=
  getDiffIndexAux keyArg st.keyOffset st.key 0

/-! ## The two node encoders -/

/-- Two-nibbles-per-byte packing as `rawHPRLP` performs it: the high nibble is
shifted into place and or-ed into the byte (`payload[pos] |= nibble << 4`). -/
def packNibblesOr : List Nat → List Nat
  | a :: b :: rest => (((a <<< 4) % 256) ||| (b % 256)) :: packNibblesOr rest
  | [] => []
  | [_] => []

/-- Two-nibbles-per-byte packing as `writeHPRLP` performs it
(`writer.Write([]byte{m*16 + nibble})`). -/
def packNibblesMul : List Nat → List Nat
  | a :: b :: rest => ((a * 16 + b) % 256) :: packNibblesMul rest
  | [] => []
  | [_] => []

/-- The hex-prefix-plus-key field of `rawHPRLP` (stacktrie.go lines 268-293):
no byte at all for an empty key; otherwise the HP byte (carrying the first
nibble when the length is odd) followed by the packed remaining nibbles. -/
def rawHP (keyArg : List Nat) (leaf : Bool) : List Nat :=
  if keyArg.length = 0 then []
  else
    let flag := 16 * (keyArg.length % 2) ||| (if leaf then 32 else 0)
    if keyArg.length % 2 = 1 then
      (flag ||| (keyArg.headD 0 % 256)) :: packNibblesOr keyArg.tail
    else
      flag :: packNibblesOr keyArg

/-- `rawHPRLP` is called when the length of the RLP of a node is less than 32.
It returns the un-hashed payload. -/
def rawHPRLP (keyArg valArg : List Nat) (leaf : Bool) : List Nat :=
  let val_header_len := if valArg.length == 1 && valArg.headD 0 < 128 then 0 else 1
  let key_header_len := if 2 ≤ keyArg.length then 1 else 0
  let hplen := if keyArg.length == 0 then 0 else 1
  let listHeader :=
    (192 + (hplen + key_header_len + keyArg.length / 2 + val_header_len + valArg.length)) % 256
  let keyHeaderBytes := if key_header_len == 1 then [(1 + keyArg.length / 2) % 256] else []
  let valHeaderBytes :=
    if valArg.length > 1 || 128 ≤ valArg.headD 0 then
      [if valArg.length > 1 then (valArg.length + 128) % 256 else valArg.length % 256]
    else []
  let payload := listHeader :: (keyHeaderBytes ++ rawHP keyArg leaf ++ valHeaderBytes ++ valArg)
  if payload.length == 2 then payload.drop 1 else payload

/-- The hex-prefix byte of `writeHPRLP`, written at the end of the header
buffer: flags alone for an even-length key, flags or-ed with the first nibble
and the odd marker otherwise. -/
def streamHPHead (keyArg : List Nat) (leaf : Bool) : Nat :=
  let hp := if leaf then 32 else 0
  if keyArg.length % 2 = 0 then hp else (hp ||| (keyArg.headD 0) ||| 16) % 256

/-- The hex-prefix byte string emitted by `writeHPRLP` for a key: the HP head
byte followed by the packed nibbles (skipping the first nibble when the key
length is odd, it lives in the head byte). -/
def streamHP (keyArg : List Nat) (leaf : Bool) : List Nat :=
  streamHPHead keyArg leaf ::
    packNibblesMul (keyArg.drop (if keyArg.length % 2 = 0 then 0 else 1))

/-- `writeHPRLP` writes a key with its hex prefix into a writer and then
writes the value; the returned list is the byte stream written. -/
def writeHPRLP (keyArg valArg : List Nat) (leaf : Bool) : List Nat :=
  let h3 := streamHPHead keyArg leaf
  let keyByteSize := keyArg.length / 2
  let hasKeyHeader := keyArg.length > 1 || 128 < h3
  let keyHeaderBytes := if hasKeyHeader then [(128 + keyByteSize + 1) % 256] else []
  let valHeaderLen :=
    if valArg.length > 56 then 2
    else if valArg.length == 1 && valArg.headD 0 < 128 then 0
    else 1
  let payloadSize := keyByteSize + (1 + keyHeaderBytes.length) + valHeaderLen + valArg.length
  let globalHeader :=
    if payloadSize > 56 then [0xf8, payloadSize % 256] else [(192 + payloadSize) % 256]
  let valHeaderBytes :=
    if valArg.length > 56 then [0xb8, valArg.length % 256]
    else if valArg.length > 1 || 128 ≤ valArg.headD 0 then [(128 + valArg.length) % 256]
    else []
  globalHeader ++ keyHeaderBytes ++ streamHP keyArg leaf ++ valHeaderBytes ++ valArg

/-- The inline (un-hashed) extension encoding of `hash` (stacktrie.go lines
482-499), written into a 32-byte scratch array.  The key-nibble loop uses
plain assignment (`rlp[...] = ...`), exactly as the source does. -/
def extInlineRLP (keyArg ch : List Nat) : List Nat :=
  let r0 : List Nat := List.replicate 32 0
  let r1 := r0.set 2 (if keyArg.length % 2 == 0 then 0 else (16 + keyArg.headD 0) % 256)
  let r2 := r1.set 1 ((128 + 1 + keyArg.length / 2) % 256)
  let r3 := (List.range keyArg.length).foldl (fun r i =>
    r.set (3 - keyArg.length % 2 + i / 2)
      (((keyArg.getD i 0) <<< (4 * ((i + 1 + keyArg.length) % 2))) % 256)) r2
  let e := 3 + keyArg.length / 2
  let r4 := (r3.take e ++ ch ++ r3.drop (e + ch.length)).take 32
  let r5 := r4.set 0 ((192 + 2 + keyArg.length / 2 + ch.length) % 256)
  r5.take (e + ch.length)

/-! ## hash, insert, TryUpdate -/

/-- Child-reference bytes written into a branch payload for one child hash
(stacktrie.go lines 438-445): a single byte below 128 is written as-is, any
other child hash is preceded by a `128+len` byte-string header. -/
def branchChildRef (childhash : List Nat) : List Nat :=
  if childhash.length == 1 && childhash.headD 0 < 128 then childhash
  else ((128 + childhash.length) % 256) :: childhash

/-- One slot of the branch-payload loop: a non-nil child is hashed and
written as a child reference, a nil slot contributes the RLP empty string
`0x80`. -/
def childRefOf (h : ReStackTrie → Except Err (List Nat)) :
    Option ReStackTrie → Except Err (List Nat)
  | some v => do
    let childhash ← h v
    pure (branchChildRef childhash)
  | none => pure [0x80]

/-- The child loop of the branch case of `hash` (stacktrie.go lines 434-452),
parameterized by the child-hashing function. -/
def branchPayloadWith (h : ReStackTrie → Except Err (List Nat)) :
    List (Option ReStackTrie) → Except Err (List Nat)
  | [] => .ok []
  | c :: rest => do
    let head ← childRefOf h c
    let tail ← branchPayloadWith h rest
    .ok (head ++ tail)

/-- Header computation and embed decision of the branch case (stacktrie.go
lines 453-479): append the empty 17th slot, prepend the list header (short,
one- or two-byte long form), return the encoding raw when shorter than 32
bytes and its Keccak-256 otherwise. -/
def branchHeaderEnc (payload0 : List Nat) : List Nat :=
  let payload := payload0 ++ [0x80]
  let L := payload.length
  let enc :=
    if L < 56 then ((192 + L) % 256) :: payload
    else if L < 256 then 0xf8 :: (L % 256) :: payload
    else 0xf9 :: ((L >>> 8) % 256) :: (L % 256) :: payload
  if enc.length < 32 then enc else keccak256 enc

/-- The extension case after the child hash is known (stacktrie.go lines
482-501): inline sub-29 encodings, stream-and-hash otherwise. -/
def extEncChoice (stkey ch : List Nat) : List Nat :=
  if stkey.length / 2 + 1 + ch.length < 29 then extInlineRLP stkey ch
  else keccak256 (writeHPRLP stkey ch false)

/-- `hash` of a node, with explicit recursion fuel.  Mutation of the Go node
(resetting children, stubbing) never influences any later read, so the
function is modelled as pure. -/
def hashNode : Nat → ReStackTrie → Except Err (List Nat)
  | 0, _ => .error .outOfFuel
  | fuel + 1, st =>
    if st.nodeType == hashedNode then .ok st.val
    else if st.nodeType == branchNode then
      (branchPayloadWith (fun v => hashNode fuel v) st.children).map branchHeaderEnc
    else if st.nodeType == extNode then
      match childAt st.children 0 with
      | none => .error .nilChild
      | some c => (hashNode fuel c).map (extEncChoice st.key)
    else if st.nodeType == leafNode then
      if st.key.length / 2 + 1 + st.val.length < 29 then
        pure (rawHPRLP st.key st.val true)
      else
        pure (keccak256 (writeHPRLP st.key st.val true))
    else if st.nodeType == emptyNode then .ok emptyRoot
    else .error .invalidNodeType

/-- The branch child loop at a given fuel. -/
def branchPayload (fuel : Nat) : List (Option ReStackTrie) → Except Err (List Nat) :=
  branchPayloadWith (fun v => hashNode fuel v)

/-- The collapse loop of the branch case of `insert` (stacktrie.go lines
83-94): scan child slots `i-1, i-2, …, 0`; at the first non-nil slot, hash it
in place if it is not already hashed, then stop. -/
def collapseFrom (fuel : Nat) (ch : List (Option ReStackTrie)) :
    Nat → Except Err (List (Option ReStackTrie))
  | 0 => .ok ch
  | i + 1 =>
    match childAt ch i with
    | some c =>
      if c.nodeType != hashedNode then do
        let h ← hashNode fuel c
        .ok (ch.set i (some (.mk hashedNode h [] c.keyOffset c.children)))
      else .ok ch
    | none => collapseFrom fuel ch i

/-- Helper function that inserts a (key, value) pair into the trie, with
explicit recursion fuel. -/
def insert : Nat → ReStackTrie → List Nat → List Nat → Except Err ReStackTrie
  | 0, _, _, _ => .error .outOfFuel
  | fuel + 1, st, keyArg, value =>
    if st.nodeType == branchNode then
      match keyArg.get? st.keyOffset with
      | none => .error .indexOutOfRange
      | some idx =>
        if 16 ≤ idx then .error .indexOutOfRange
        else
          let ch0 :=
            if (childAt st.children idx).isNone then
              st.children.set idx (some (.mk emptyNode [] [] (st.keyOffset + 1) nilChildren))
            else st.children
          do
          let ch1 ← collapseFrom fuel ch0 idx
          match childAt ch1 idx with
          | none => .error .nilChild
          | some c => do
            let c' ← insert fuel c keyArg value
            .ok (st.withChildren (ch1.set idx (some c')))
    else if st.nodeType == extNode then do
      let diffidx ← getDiffIndex st keyArg
      if diffidx == st.key.length then
        match childAt st.children 0 with
        | none => .error .nilChild
        | some c => do
          let c' ← insert fuel c keyArg value
          .ok (st.withChildren (st.children.set 0 (some c')))
      else do
        let n ←
          if diffidx < st.key.length - 1 then
            Except.ok (ReStackTrie.mk extNode [] (st.key.drop (diffidx + 1))
              (st.keyOffset + diffidx + 1) (nilChildren.set 0 (childAt st.children 0)))
          else
            match childAt st.children 0 with
            | none => Except.error Err.nilChild
            | some c => Except.ok (c.withKeyOffset (st.keyOffset + diffidx + 1))
        let nh ← hashNode fuel n
        let nStub := ReStackTrie.mk hashedNode nh [] n.keyOffset n.children
        let o := ReStackTrie.mk leafNode value (keyArg.drop (st.keyOffset + diffidx + 1))
          (st.keyOffset + diffidx + 1) nilChildren
        let origIdx := st.key.getD diffidx 0
        match keyArg.get? (diffidx + st.keyOffset) with
        | none => .error .indexOutOfRange
        | some newIdx =>
          if 16 ≤ origIdx || 16 ≤ newIdx then .error .indexOutOfRange
          else if diffidx == 0 then
            .ok (ReStackTrie.mk branchNode st.val (st.key.take 0) st.keyOffset
              (((st.children.set 0 none).set origIdx (some nStub)).set newIdx (some o)))
          else
            let p := ReStackTrie.mk branchNode [] [] (st.keyOffset + diffidx)
              ((nilChildren.set origIdx (some nStub)).set newIdx (some o))
            .ok (ReStackTrie.mk extNode st.val (st.key.take diffidx) st.keyOffset
              (st.children.set 0 (some p)))
    else if st.nodeType == leafNode then do
      let diffidx ← getDiffIndex st keyArg
      if st.key.length ≤ diffidx then .error .insertIntoExistingKey
      else
        let pOffset := if diffidx == 0 then st.keyOffset else st.keyOffset + diffidx
        let origIdx := st.key.getD diffidx 0
        let origLeaf := ReStackTrie.mk leafNode st.val (st.key.drop (diffidx + 1))
          (pOffset + 1) nilChildren
        do
        let oh ← hashNode fuel origLeaf
        let origStub := ReStackTrie.mk hashedNode oh [] (pOffset + 1) nilChildren
        match keyArg.get? (diffidx + st.keyOffset) with
        | none => .error .indexOutOfRange
        | some newIdx =>
          if 16 ≤ origIdx || 16 ≤ newIdx then .error .indexOutOfRange
          else
            let o := ReStackTrie.mk leafNode value (keyArg.drop (pOffset + 1))
              (pOffset + 1) nilChildren
            if diffidx == 0 then
              .ok (ReStackTrie.mk branchNode st.val (st.key.take 0) st.keyOffset
                (((st.children.set 0 none).set origIdx (some origStub)).set newIdx (some o)))
            else
              let p := ReStackTrie.mk branchNode [] [] (st.keyOffset + diffidx)
                ((nilChildren.set origIdx (some origStub)).set newIdx (some o))
              .ok (ReStackTrie.mk extNode st.val (st.key.take diffidx) st.keyOffset
                (st.children.set 0 (some p)))
    else if st.nodeType == emptyNode then
      .ok (ReStackTrie.mk leafNode value (keyArg.drop st.keyOffset) st.keyOffset st.children)
    else if st.nodeType == hashedNode then .error .insertIntoHash
    else .error .invalidType

/-- `TryUpdate`: expand the byte key to nibbles, reject empty values, insert
the nibbles without the terminator.  The second component of the result is
the Go `error` return value (always `nil` = `none`). -/
def TryUpdate (fuel : Nat) (st : ReStackTrie) (keyB value : List Nat) :
    Except Err (ReStackTrie × Option Unit) :=
  let k := keybytesToHex keyB
  if value.length == 0 then .error .deletionNotSupported
  else do
    let st' ← insert fuel st k.dropLast value
    .ok (st', none)

/-- Modelled from the spec: `common.BytesToHash` (not under src/), used by the
public `Hash` to force `hash()`'s result into the spec's 32-byte digest form:
shorter inputs are left-padded with zero bytes, longer ones keep their last
32 bytes. -/
def bytesToHash32 (b : List Nat) : List Nat :=
  List.replicate (32 - b.length) 0 ++ b.drop (b.length - 32)

/-- `Hash` returns `common.BytesToHash(st.hash())`. -/
def Hash (fuel : Nat) (st : ReStackTrie) : Except Err (List Nat) :=
  (hashNode fuel st).map bytesToHash32

/-! ## The reference conventional Merkle-Patricia trie (spec §4.3)

The repository's reference trie (`AppendOnlyTrie`, used by its tests) is not
under src/, so the conventional recursive builder is modelled from the spec:
Hex-Prefix key encoding, canonical RLP, the embed-vs-hash child-reference
rule, and the final root hash. -/

/-- Pack a nibble sequence two-per-byte, high nibble first (spec §4.3). -/
def hpPack : List Nat → List Nat
  | a :: b :: rest => (a * 16 + b) :: hpPack rest
  | [] => []
  | [_] => []

/-- Modelled from the spec: Hex-Prefix encoding of a nibble sequence with a
terminator flag.  First byte: bit 5 (`0x20`) = terminator, bit 4 (`0x10`) =
odd length, low nibble = first nibble when odd, 0 otherwise; remaining
nibbles packed two per byte, high first. -/
def hpEncode (K : List Nat) (term : Bool) : List Nat :=
  let flag := (if term then 32 else 0) + 16 * (K.length % 2)
  if K.length % 2 == 1 then (flag + K.headD 0) :: hpPack K.tail
  else flag :: hpPack K

/-- Big-endian bytes of a length (up to 8 bytes, enough for any list). -/
def natBEAux : Nat → Nat → List Nat
  | 0, _ => []
  | f + 1, n => if n == 0 then [] else natBEAux f (n / 256) ++ [n % 256]

def natBE (n : Nat) : List Nat := natBEAux 8 n

/-- Modelled from the spec: canonical RLP of a byte string.  A single byte
below `0x80` is its own encoding; length ≤ 55 uses `0x80+L`; longer strings
use `0xb7+bytelen(L)` then the big-endian length. -/
def rlpStr (b : List Nat) : List Nat :=
  if b.length == 1 && b.headD 0 < 128 then b
  else if b.length ≤ 55 then (128 + b.length) :: b
  else (183 + (natBE b.length).length) :: (natBE b.length ++ b)

/-- Modelled from the spec: canonical RLP list header for a payload.
Length ≤ 55 uses `0xc0+L`; longer lists use `0xf7+bytelen(L)` then the
big-endian length. -/
def rlpList (payload : List Nat) : List Nat :=
  if payload.length ≤ 55 then (192 + payload.length) :: payload
  else (247 + (natBE payload.length).length) :: (natBE payload.length ++ payload)

/-- Modelled from the spec: the embed-vs-hash child-reference rule.  An
encoding shorter than 32 bytes is spliced verbatim into the parent payload;
otherwise the reference is the 32-byte Keccak-256 written as an RLP byte
string (`0xa0` prefix). -/
def refChildRef (enc : List Nat) : List Nat :=
  if enc.length < 32 then enc else rlpStr (keccak256 enc)

/-- Longest common prefix of two nibble sequences. -/
def lcp2 : List Nat → List Nat → List Nat
  | a :: as, b :: bs => if a == b then a :: lcp2 as bs else []
  | _, _ => []

/-- Longest common prefix of a set of keys. -/
def lcpAll : List (List Nat) → List Nat
  | [] => []
  | k :: ks => ks.foldl lcp2 k

/-- Modelled from the spec: canonical encoding of the conventional recursive
Merkle-Patricia trie over a set of (nibble-key, value) pairs with distinct,
prefix-free keys.  A single pair is a leaf `[HP(k, leaf), value]`; a common
prefix produces an extension over a branch; otherwise a 17-item branch whose
first 16 slots hold child references (or `0x80`) and whose 17th slot is
always the empty string. -/
def refEncode : Nat → List (List Nat × List Nat) → Option (List Nat)
  | 0, _ => none
  | _, [] => none
  | _ + 1, [(k, v)] => some (rlpList (rlpStr (hpEncode k true) ++ rlpStr v))
  | fuel + 1, pairs =>
    let p := lcpAll (pairs.map (fun kv => kv.1))
    if p.length != 0 then
      match refEncode fuel (pairs.map (fun kv => (kv.1.drop p.length, kv.2))) with
      | none => none
      | some inner => some (rlpList (rlpStr (hpEncode p false) ++ refChildRef inner))
    else
      match (List.range 16).mapM (fun i =>
        let grp := (pairs.filter (fun kv => kv.1.headD 99 == i)).map
          (fun kv => (kv.1.tail, kv.2))
        if grp.isEmpty then some [0x80] else (refEncode fuel grp).map refChildRef) with
      | none => none
      | some slots => some (rlpList (slots.flatten ++ [0x80]))

/-- Modelled from the spec: the reference root hash.  Empty set: the fixed
empty-trie root.  Otherwise the Keccak-256 of the root encoding (also when
that encoding is shorter than 32 bytes, spec §4.3 final-hash rule). -/
def refRootHash (fuel : Nat) : List (List Nat × List Nat) → Option (List Nat)
  | [] => some emptyRoot
  | pairs => (refEncode fuel pairs).map keccak256

/-! ## Hex-Prefix decoding (claim C9) -/

/-- Unpack bytes into nibbles, high nibble of each byte first. -/
def unpackNibbles : List Nat → List Nat
  | x :: rest => x / 16 :: x % 16 :: unpackNibbles rest
  | [] => []

/-- Decoder of the Hex-Prefix byte string as described by the spec: the first
byte carries the terminator flag (`0x20`) and the odd-length flag (`0x10`,
with the first nibble in its low nibble); the remaining bytes carry two
nibbles each.  Returns `none` for byte strings that are not a Hex-Prefix
encoding (empty, flag bits above `0x3f`, or a nonzero pad nibble). -/
def hpDecode : List Nat → Option (List Nat × Bool)
  | [] => none
  | f :: rest =>
    if 64 ≤ f then none
    else
      let term := f / 32 == 1
      let odd := f / 16 % 2 == 1
      if odd then some (f % 16 :: unpackNibbles rest, term)
      else if f % 16 == 0 then some (unpackNibbles rest, term)
      else none

/-! ## Builder runs -/

/-- Feed a list of (byte key, value) pairs through `TryUpdate` in order. -/
def buildTrie (fuel : Nat) (pairs : List (List Nat × List Nat)) : Except Err ReStackTrie :=
  pairs.foldlM (fun st kv => (TryUpdate fuel st kv.1 kv.2).map Prod.fst) NewReStackTrie

/-- Build a trie from byte-key pairs and return `hash()` of the root. -/
def rootBytes (fuel : Nat) (pairs : List (List Nat × List Nat)) : Except Err (List Nat) :=
  buildTrie fuel pairs >>= hashNode fuel

/-! ## The left-collapsed shape of in-order builds -/

/-- The nibble path `insert` receives for a byte key: `keybytesToHex` without
its trailing terminator nibble (exactly the argument `TryUpdate` passes). -/
def hexPath (b : List Nat) : List Nat := (keybytesToHex b).dropLast

/-- Sequence `new` diverges from sequence `old` at some position at or beyond
`d`, with the prior elements equal and the `new` element strictly larger.  At
byte level (`d = 0`) this is strict lexicographic order with neither key a
prefix of the other — the in-order discipline the stack trie requires. -/
def KeyDiverge (d : Nat) (old new : List Nat) : Prop :=
  ∃ i, d ≤ i ∧ old.take i = new.take i ∧
    ∃ x y, old.get? i = some x ∧ new.get? i = some y ∧ x < y

/-- Each key diverges rightward from its predecessor. -/
def OrderedKeys : List (List Nat) → Prop
  | a :: b :: rest => KeyDiverge 0 a b ∧ OrderedKeys (b :: rest)
  | _ => True

/-- The shape invariant of the resident tree after in-order inserts, relative
to the nibble path `last` of the most recently inserted key: the resident
non-`hashed` nodes are exactly the rightmost path (the descent path of
`last` starting at depth `d`), every branch child left of that path is a
`hashed` stub, and every branch child right of it is still nil. -/
inductive Inv : ReStackTrie → Nat → List Nat → Prop where
  | leaf (v : List Nat) (d : Nat) (last : List Nat) :
      Inv (.mk leafNode v (last.drop d) d nilChildren) d last
  | ext (v k : List Nat) (d : Nat) (last : List Nat) (c : ReStackTrie)
      (hk : k ≠ [])
      (hseg : (last.drop d).take k.length = k)
      (hc : Inv c (d + k.length) last) :
      Inv (.mk extNode v k d (nilChildren.set 0 (some c))) d last
  | branch (v k : List Nat) (d : Nat) (last : List Nat) (j : Nat)
      (ch : List (Option ReStackTrie)) (cj : ReStackTrie)
      (hlen : ch.length = 16)
      (hjd : last.get? d = some j)
      (hj16 : j < 16)
      (hcj : childAt ch j = some cj)
      (hcjnh : cj.nodeType ≠ hashedNode)
      (hcji : Inv cj (d + 1) last)
      (hleft : ∀ i2, i2 < j → childAt ch i2 = none ∨
          ∃ s, childAt ch i2 = some s ∧ s.nodeType = hashedNode)
      (hright : ∀ i2, j < i2 → childAt ch i2 = none) :
      Inv (.mk branchNode v k d ch) d last

/-- The child slots of a branch that hold a resident non-`hashed` node. -/
def liveSlots (ch : List (Option ReStackTrie)) : List Nat :=
  (List.range 16).filter (fun i =>
    match childAt ch i with
    | some c => c.nodeType != hashedNode
    | none => false)

/-- Executable check of the claim's observable: each branch has exactly one
resident non-`hashed` child (so those children left of it, having been
passed, are `hashed` stubs or nil), and the resident nodes form one path.
The fuel bounds the depth of the walk. -/
def isPathB : Nat → ReStackTrie → Bool
  | 0, _ => false
  | f + 1, st =>
    if st.nodeType == branchNode then
      match liveSlots st.children with
      | [j] =>
        match childAt st.children j with
        | some c => isPathB f c
        | none => false
      | _ => false
    else if st.nodeType == extNode then
      match childAt st.children 0 with
      | some c => isPathB f c
      | none => false
    else true

/-- Boolean success test for a builder run. -/
def exceptIsOk : Except Err ReStackTrie → Bool
  | .ok _ => true
  | .error _ => false

/-- Well-shapedness of the Go data: the node-type tag is one of the five
declared constants, the children array has its 16 slots, and an extension
node's single child pointer is non-nil.  Every tree the API builds has this
shape; it rules out the `invalid type` panic and the nil dereference. -/
inductive WFShape : ReStackTrie → Prop where
  | mk : ∀ (t : Nat) (v k : List Nat) (o : Nat) (ch : List (Option ReStackTrie)),
      t < 5 → ch.length = 16 →
      (∀ c ∈ ch, ∀ x, c = some x → WFShape x) →
      (t = extNode → (childAt ch 0).isSome = true) →
      WFShape (.mk t v k o ch)

/-! ## Theorems -/

/-- Known Keccak-256 vector: the digest of the empty string. -/
theorem keccak256_nil :
    keccak256 [] =
      [0xc5, 0xd2, 0x46, 0x01, 0x86, 0xf7, 0x23, 0x3c, 0x92, 0x7e, 0x7d, 0xb2,
       0xdc, 0xc7, 0x03, 0xc0, 0xe5, 0x00, 0xb6, 0x53, 0xca, 0x82, 0x27, 0x3b,
       0x7b, 0xfa, 0xd8, 0x04, 0x5d, 0x85, 0xa4, 0x70] := by
  decide

/-- Sanity check of the Keccak embedding against the spec's cross-check
vector: the empty-trie root is the Keccak-256 of RLP(`""`) = `0x80`. -/
theorem emptyRoot_eq_keccak_rlp_empty : emptyRoot = keccak256 [0x80] := by decide

/-! ## Helper lemmas -/

theorem packNibblesOr_length : ∀ l : List Nat, (packNibblesOr l).length = l.length / 2
  | [] => rfl
  | [_] => by simp [packNibblesOr]
  | _ :: _ :: rest => by
    simp only [packNibblesOr, List.length_cons, packNibblesOr_length rest]
    omega

theorem packNibblesMul_length : ∀ l : List Nat, (packNibblesMul l).length = l.length / 2
  | [] => rfl
  | [_] => by simp [packNibblesMul]
  | _ :: _ :: rest => by
    simp only [packNibblesMul, List.length_cons, packNibblesMul_length rest]
    omega

theorem rawHP_length (K : List Nat) (leaf : Bool) :
    (rawHP K leaf).length = if K.length = 0 then 0 else 1 + K.length / 2 := by
  unfold rawHP
  rcases K with _ | ⟨a, tl⟩
  · simp
  · simp only [List.length_cons, beq_iff_eq, Nat.succ_ne_zero, if_false]
    by_cases h : (tl.length + 1) % 2 = 1
    · simp [h, packNibblesOr_length]
      omega
    · simp [h, packNibblesOr_length]
      omega

/-- Payload-size bound of `rawHPRLP` under the guard its caller checks. -/
theorem rawHPRLP_length_lt (K V : List Nat) (leaf : Bool)
    (h : K.length / 2 + 1 + V.length < 29) :
    (rawHPRLP K V leaf).length < 32 := by
  unfold rawHPRLP
  simp only [apply_ite List.length, List.length_drop, List.length_cons,
    List.length_append, rawHP_length]
  split_ifs <;> simp_all <;> omega

/-! ## C1 -/

/-- C1: refuted.  The claim states that for pairs inserted via `TryUpdate` in
ascending nibble-lexicographic order, `Hash()` equals the root of a reference
Merkle-Patricia trie over the same set.  Inserting the spec's own short-RLP
scenario (keys `00 01 02` / `00 01 03`, values `"b"` / `"c"`) the code's root
encoding is a garbled 23-byte string (missing hex prefix, wrapped embedded
leaves), while the reference root is the Keccak-256 of the canonical
encoding; the 32-byte forms disagree. -/
theorem c1_root_agreement_refuted :
    rootBytes 100 [([0x00, 0x01, 0x02], [0x62]), ([0x00, 0x01, 0x03], [0x63])] =
      Except.ok [214, 131, 0, 16, 0, 209, 128, 128, 98, 99, 128, 128, 128, 128,
        128, 128, 128, 128, 128, 128, 128, 128, 128] ∧
    (keybytesToHex [0x00, 0x01, 0x02]).dropLast = [0, 0, 0, 1, 0, 2] ∧
    (keybytesToHex [0x00, 0x01, 0x03]).dropLast = [0, 0, 0, 1, 0, 3] ∧
    refRootHash 100 [([0, 0, 0, 1, 0, 2], [0x62]), ([0, 0, 0, 1, 0, 3], [0x63])] =
      some [201, 201, 102, 235, 252, 4, 208, 239, 182, 246, 109, 35, 176, 223,
        2, 189, 107, 98, 107, 98, 59, 23, 8, 255, 152, 87, 168, 239, 180, 58, 80, 121] ∧
    bytesToHash32 [214, 131, 0, 16, 0, 209, 128, 128, 98, 99, 128, 128, 128, 128,
        128, 128, 128, 128, 128, 128, 128, 128, 128] ≠
      [201, 201, 102, 235, 252, 4, 208, 239, 182, 246, 109, 35, 176, 223,
        2, 189, 107, 98, 107, 98, 59, 23, 8, 255, 152, 87, 168, 239, 180, 58, 80, 121] :=
  by refine ⟨by decide, by decide, by decide, by decide, by decide⟩

/-! ## C2 -/

/-- C2: counterexample.  The claim states `hash()`/`Hash()` always return the
32-byte Keccak-256 of the trie encoding, never a raw sub-32-byte encoding.
After inserting the single pair (`0x12`, `"ab"`), `hash()` returns exactly the
raw 7-byte leaf encoding (it is `rawHPRLP` of the key and value, unhashed). -/
theorem c2_counterexample :
    rootBytes 100 [([0x12], [0x61, 0x62])] =
      Except.ok [198, 2, 32, 18, 130, 97, 98] ∧
    ([198, 2, 32, 18, 130, 97, 98] : List Nat).length = 7 ∧
    rawHPRLP [1, 2] [0x61, 0x62] true = [198, 2, 32, 18, 130, 97, 98] ∧
    [198, 2, 32, 18, 130, 97, 98] ≠ keccak256 [198, 2, 32, 18, 130, 97, 98] :=
  by refine ⟨by decide, by decide, by decide, by decide⟩

/-- The Keccak-256 digest always has 32 bytes. -/
theorem keccak256_length (msg : List Nat) : (keccak256 msg).length = 32 := by
  simp [keccak256]

/-- C2: amended.  `hash()` decides a leaf by the source's size heuristic
`len(key)/2 + 1 + len(val) < 29`, not by the encoding's actual length: below
the threshold it returns the raw encoding itself — always shorter than 32
bytes — which `Hash()` zero-pads instead of hashing; at or above the
threshold it returns the 32-byte Keccak-256 of the streaming encoding, even
when that encoding is itself shorter than 32 bytes (the witness hashes a
31-byte boundary encoding).  Values are restricted to non-empty lists, the
only ones a leaf can hold: `TryUpdate` rejects empty values, and the Go
encoders read `val[0]`. -/
theorem c2_amended (fuel off : Nat) (K V : List Nat) (ch : List (Option ReStackTrie))
    (hV : V ≠ []) :
    hashNode (fuel + 1) (ReStackTrie.mk leafNode V K off ch) =
      Except.ok (if K.length / 2 + 1 + V.length < 29 then rawHPRLP K V true
        else keccak256 (writeHPRLP K V true)) ∧
    Hash (fuel + 1) (ReStackTrie.mk leafNode V K off ch) =
      Except.ok (if K.length / 2 + 1 + V.length < 29 then bytesToHash32 (rawHPRLP K V true)
        else keccak256 (writeHPRLP K V true)) ∧
    (K.length / 2 + 1 + V.length < 29 → (rawHPRLP K V true).length < 32) ∧
    (keccak256 (writeHPRLP K V true)).length = 32 := by
  have hlen32 := keccak256_length (writeHPRLP K V true)
  have h1 : hashNode (fuel + 1) (ReStackTrie.mk leafNode V K off ch) =
      Except.ok (if K.length / 2 + 1 + V.length < 29 then rawHPRLP K V true
        else keccak256 (writeHPRLP K V true)) := by
    simp only [hashNode, ReStackTrie.nodeType, ReStackTrie.key, ReStackTrie.val,
      leafNode, hashedNode, branchNode, extNode]
    rw [if_neg (by decide), if_neg (by decide), if_neg (by decide), if_pos (by decide)]
    split_ifs <;> rfl
  have h2 : Hash (fuel + 1) (ReStackTrie.mk leafNode V K off ch) =
      Except.ok (if K.length / 2 + 1 + V.length < 29 then bytesToHash32 (rawHPRLP K V true)
        else keccak256 (writeHPRLP K V true)) := by
    unfold Hash
    rw [h1]
    simp only [Except.map]
    split_ifs
    · rfl
    · rw [show bytesToHash32 (keccak256 (writeHPRLP K V true)) =
          keccak256 (writeHPRLP K V true) from by
        unfold bytesToHash32
        rw [hlen32]
        simp]
  exact ⟨h1, h2, fun hg => rawHPRLP_length_lt K V true hg, hlen32⟩

/-- C2 witness: the amended statement at the concrete leaf (`0x12`, `"ab"`),
whose 7-byte encoding comes back raw and zero-padded, and at the boundary
leaf with empty key and 28-byte value, whose 31-byte streaming encoding is
nevertheless hashed (the heuristic, not the 32-byte line, decides). -/
theorem c2_amended_witness :
    hashNode 3 (ReStackTrie.mk leafNode [0x61, 0x62] [1, 2] 0 nilChildren) =
      Except.ok (rawHPRLP [1, 2] [0x61, 0x62] true) ∧
    (rawHPRLP [1, 2] [0x61, 0x62] true).length < 32 ∧
    Hash 3 (ReStackTrie.mk leafNode [0x61, 0x62] [1, 2] 0 nilChildren) =
      Except.ok (bytesToHash32 (rawHPRLP [1, 2] [0x61, 0x62] true)) ∧
    hashNode 3 (ReStackTrie.mk leafNode (List.replicate 28 0x61) [] 0 nilChildren) =
      Except.ok (keccak256 (writeHPRLP [] (List.replicate 28 0x61) true)) ∧
    (writeHPRLP [] (List.replicate 28 0x61) true).length = 31 := by
  have h1 := c2_amended 2 0 [1, 2] [0x61, 0x62] nilChildren (by decide)
  have h2 := c2_amended 2 0 [] (List.replicate 28 0x61) nilChildren (by decide)
  exact ⟨h1.1, h1.2.2.1 (by decide), h1.2.1, h2.1, by decide⟩

/-! ## C3 -/

/-- C3: refuted at a concrete run.  The claim states a child whose encoding is
shorter than 32 bytes is spliced verbatim into the parent (no byte-string
header).  Inserting (`0x01`, `"bb"`) and (`0x02`, `"cc"`), the sibling leaf
encoding is the 4-byte `[195, 130, 98, 98]`, yet the branch payload stores it
wrapped as `[132, 195, 130, 98, 98]` (header `0x80 + 4`), as both the branch
child-reference function and the full root encoding show. -/
theorem c3_embed_rule_refuted :
    rootBytes 100 [([0x01], [0x62, 0x62]), ([0x02], [0x63, 0x63])] =
      Except.ok [220, 129, 0, 217, 128, 132, 195, 130, 98, 98, 132, 195, 130,
        99, 99, 128, 128, 128, 128, 128, 128, 128, 128, 128, 128, 128, 128, 128, 128] ∧
    rawHPRLP [] [0x62, 0x62] true = [195, 130, 98, 98] ∧
    ([195, 130, 98, 98] : List Nat).length < 32 ∧
    branchChildRef [195, 130, 98, 98] = 132 :: [195, 130, 98, 98] ∧
    branchChildRef [195, 130, 98, 98] ≠ [195, 130, 98, 98] :=
  by refine ⟨by decide, by decide, by decide, by decide, by decide⟩

/-! ## C4 -/

/-- C4: refuted at the length-56 boundary.  The claim states byte strings of
length L ≤ 55 get header `0x80+L` and only L > 55 uses the long form
`0xb7+bytelen(L)` followed by the length.  For a 56-byte value the streaming
encoder emits the single byte `0x80+56 = 0xb8` with no length byte behind it
(the value bytes follow directly), instead of the long form `0xb8 0x38`. -/
theorem c4_rlp_boundary_refuted :
    writeHPRLP [0, 1] (List.replicate 56 0x41) true =
      [248, 60, 130, 32, 1, 184] ++ List.replicate 56 0x41 ∧
    (List.replicate 56 0x41).length = 56 ∧
    writeHPRLP [0, 1] (List.replicate 56 0x41) true ≠
      [248, 61, 130, 32, 1, 184, 56] ++ List.replicate 56 0x41 :=
  ⟨by decide, by decide, by decide⟩

/-! ## C7 -/

/-- C7: refuted at the spec's own single-leaf vector.  The claim states that
after inserting (`0x`, `"verb"`) the root hash is the Keccak-256 of the RLP
list `[HP([], leaf=true), "verb"]` with `HP([], true) = 0x20`.  The reference
encoding is `[0xc6, 0x20, 0x84, v, e, r, b]` and its Keccak-256 starts
`0xbe 0x31 …`; the code instead returns the raw 6-byte encoding
`[0xc5, 0x84, v, e, r, b]` (no hex-prefix byte, never hashed), which `Hash()`
merely zero-pads. -/
theorem c7_single_leaf_refuted :
    rootBytes 100 [([], [118, 101, 114, 98])] =
      Except.ok [197, 132, 118, 101, 114, 98] ∧
    hpEncode [] true = [0x20] ∧
    rlpList (rlpStr (hpEncode [] true) ++ rlpStr [118, 101, 114, 98]) =
      [198, 32, 132, 118, 101, 114, 98] ∧
    keccak256 [198, 32, 132, 118, 101, 114, 98] =
      [190, 49, 32, 34, 66, 121, 246, 17, 123, 199, 242, 235, 228, 84, 162,
       251, 217, 232, 136, 63, 180, 93, 90, 78, 132, 8, 37, 176, 215, 126, 22, 127] ∧
    bytesToHash32 [197, 132, 118, 101, 114, 98] ≠
      [190, 49, 32, 34, 66, 121, 246, 17, 123, 199, 242, 235, 228, 84, 162,
       251, 217, 232, 136, 63, 180, 93, 90, 78, 132, 8, 37, 176, 215, 126, 22, 127] :=
  by refine ⟨by decide, by decide, by decide, by decide, by decide⟩

/-! ## C8 -/

/-- C8: refuted.  The claim states the small encoder `rawHPRLP` and the
streaming encoder `writeHPRLP` emit identical bytes on the overlap region.
On the leaf (key nibbles `[0,1]`, value `[2,3]`) — whose encoding is 7 bytes,
well inside the sub-32-byte overlap — the small encoder omits the `0x80` base
of the key byte-string header (second byte `0x02` instead of `0x82`). -/
theorem c8_encoder_mismatch :
    rawHPRLP [0, 1] [2, 3] true = [198, 2, 32, 1, 130, 2, 3] ∧
    writeHPRLP [0, 1] [2, 3] true = [198, 130, 32, 1, 130, 2, 3] ∧
    (rawHPRLP [0, 1] [2, 3] true).length < 32 ∧
    rawHPRLP [0, 1] [2, 3] true ≠ writeHPRLP [0, 1] [2, 3] true :=
  by refine ⟨by decide, by decide, by decide, by decide⟩

/-! ## C6 -/

/-- Membership from a successful default-access. -/
theorem childAt_some_mem (l : List (Option ReStackTrie)) (n : Nat) (x : ReStackTrie)
    (h : childAt l n = some x) : some x ∈ l := by
  unfold childAt List.getD at h
  rw [List.get?_eq_getElem?] at h
  rcases h3 : l[n]? with _ | c
  · rw [h3] at h; simp at h
  · rw [h3] at h
    simp only [Option.getD_some] at h
    subst h
    obtain ⟨hlt, hEq⟩ := List.getElem?_eq_some.mp h3
    exact hEq ▸ List.getElem_mem hlt

theorem childAt_set_self (l : List (Option ReStackTrie)) (i : Nat)
    (x : Option ReStackTrie) (h : i < l.length) : childAt (l.set i x) i = x := by
  unfold childAt
  simp [List.getD, List.getElem?_set_self, h]

theorem childAt_set_ne (l : List (Option ReStackTrie)) (i j : Nat)
    (x : Option ReStackTrie) (h : i ≠ j) : childAt (l.set i x) j = childAt l j := by
  unfold childAt
  simp [List.getD, List.getElem?_set_ne h]

theorem WFShape.nodeType_lt {st : ReStackTrie} (h : WFShape st) : st.nodeType < 5 := by
  cases h with
  | mk t v k o ch h1 h2 h3 h4 => exact h1

theorem WFShape.children_length {st : ReStackTrie} (h : WFShape st) :
    st.children.length = 16 := by
  cases h with
  | mk t v k o ch h1 h2 h3 h4 => exact h2

theorem WFShape.child_mem {st : ReStackTrie} (h : WFShape st) :
    ∀ c ∈ st.children, ∀ x, c = some x → WFShape x := by
  cases h with
  | mk t v k o ch h1 h2 h3 h4 => exact h3

theorem WFShape.child_at {st : ReStackTrie} {i : Nat} {x : ReStackTrie}
    (h : WFShape st) (hx : childAt st.children i = some x) : WFShape x :=
  h.child_mem (some x) (childAt_some_mem _ _ _ hx) x rfl

theorem WFShape.ext_child {st : ReStackTrie} (h : WFShape st)
    (ht : st.nodeType = extNode) : (childAt st.children 0).isSome = true := by
  cases h with
  | mk t v k o ch h1 h2 h3 h4 => exact h4 ht

theorem WFShape.with_keyOffset {st : ReStackTrie} (h : WFShape st) (o' : Nat) :
    WFShape (st.withKeyOffset o') := by
  cases h with
  | mk t v k o ch h1 h2 h3 h4 => exact .mk t v k o' ch h1 h2 h3 h4

/-- The fresh node of `NewReStackTrie` (at any key offset) is well-shaped. -/
theorem WFShape_fresh (t : Nat) (v k : List Nat) (o : Nat) (ht : t < 5)
    (hext : t ≠ extNode) : WFShape (.mk t v k o nilChildren) := by
  refine .mk t v k o nilChildren ht (by simp [nilChildren]) ?_ (fun he => absurd he hext)
  intro c hc x hx
  rw [List.eq_of_mem_replicate hc] at hx
  exact Option.noConfusion hx

/-- Error analysis of an `Except` bind. -/
theorem except_bind_err {α β : Type} {x : Except Err α} {f : α → Except Err β}
    {e : Err} (h : x >>= f = .error e) :
    x = .error e ∨ ∃ a, x = .ok a ∧ f a = .error e := by
  cases x with
  | error e2 =>
    have he : e2 = e := Except.error.inj h
    exact Or.inl (by rw [he])
  | ok a => exact Or.inr ⟨a, rfl, h⟩

/-- Error analysis of an `Except` map: only the argument can fail. -/
theorem except_map_err {α β : Type} {x : Except Err α} {f : α → β} {e : Err}
    (h : x.map f = .error e) : x = .error e := by
  cases x with
  | error e2 =>
    have he : e2 = e := Except.error.inj h
    rw [he]
  | ok a => exact Except.noConfusion h

/-- Success analysis of an `Except` bind. -/
theorem except_bind_ok {α β : Type} {x : Except Err α} {f : α → Except Err β}
    {b : β} (h : x >>= f = .ok b) : ∃ a, x = .ok a ∧ f a = .ok b := by
  cases x with
  | error e2 => exact Except.noConfusion h
  | ok a => exact ⟨a, rfl, h⟩

theorem getDiffIndexAux_err : ∀ (keyArg : List Nat) (off : Nat) (l : List Nat)
    (i : Nat) (e : Err), getDiffIndexAux keyArg off l i = .error e →
    e = .indexOutOfRange
  | _, _, [], _, _ => fun h => Except.noConfusion h
  | keyArg, off, s :: rest, i, e => by
    intro h
    unfold getDiffIndexAux at h
    split at h
    · exact (Except.error.inj h).symm
    · split at h
      · exact getDiffIndexAux_err keyArg off rest (i + 1) e h
      · exact Except.noConfusion h

/-- Every failure of `branchPayloadWith` comes from the child hasher. -/
theorem branchPayloadWith_err (h : ReStackTrie → Except Err (List Nat)) :
    ∀ (ch : List (Option ReStackTrie)) (e : Err),
      (∀ c ∈ ch, ∀ x e2, c = some x → h x = .error e2 → e2 = .outOfFuel) →
      branchPayloadWith h ch = .error e → e = .outOfFuel := by
  intro ch
  induction ch with
  | nil => intro e _ hh; exact Except.noConfusion hh
  | cons c rest ih =>
    intro e hmem hh
    unfold branchPayloadWith at hh
    rcases except_bind_err hh with h1 | ⟨a, _, h2⟩
    · cases c with
      | some v =>
        unfold childRefOf at h1
        rcases except_bind_err h1 with h3 | ⟨b, _, h4⟩
        · exact hmem (some v) (by simp) v e rfl h3
        · exact Except.noConfusion h4
      | none => exact Except.noConfusion h1
    · rcases except_bind_err h2 with h3 | ⟨b, _, h4⟩
      · exact ih e (fun c2 hc2 => hmem c2 (by simp [hc2])) h3
      · exact Except.noConfusion h4

/-- On well-shaped trees the only failure of `hash` is fuel exhaustion: the
`Invalid node type` panic and the nil dereference are unreachable. -/
theorem hashNode_err : ∀ (fuel : Nat) (st : ReStackTrie) (e : Err),
    WFShape st → hashNode fuel st = .error e → e = .outOfFuel := by
  intro fuel
  induction fuel with
  | zero =>
    intro st e _ h
    exact (Except.error.inj h).symm
  | succ fuel ih =>
    intro st e hwf h
    obtain ⟨t, v, k, o, ch⟩ := st
    have ht : t < 5 := hwf.nodeType_lt
    unfold hashNode at h
    simp only [ReStackTrie.nodeType, ReStackTrie.val, ReStackTrie.key,
      ReStackTrie.children] at h
    interval_cases t
    · -- branchNode
      rw [if_neg (by decide), if_pos (by decide)] at h
      exact branchPayloadWith_err _ ch e
        (fun c hc x e2 hcx hx => ih x e2 (hwf.child_mem c hc x hcx) hx)
        (except_map_err h)
    · -- extNode
      rw [if_neg (by decide), if_neg (by decide), if_pos (by decide)] at h
      have hsome := hwf.ext_child (by rfl)
      simp only [ReStackTrie.children] at hsome
      cases h0 : childAt ch 0 with
      | none => rw [h0] at hsome; exact Bool.noConfusion hsome
      | some c =>
        simp only [h0] at h
        exact ih c e (hwf.child_at (show childAt _ 0 = some c from h0))
          (except_map_err h)
    · -- leafNode
      rw [if_neg (by decide), if_neg (by decide), if_neg (by decide),
        if_pos (by decide)] at h
      revert h
      split <;> intro h <;> exact Except.noConfusion h
    · -- emptyNode
      rw [if_neg (by decide), if_neg (by decide), if_neg (by decide),
        if_neg (by decide), if_pos (by decide)] at h
      exact Except.noConfusion h
    · -- hashedNode
      rw [if_pos (by decide)] at h
      exact Except.noConfusion h

/-- The collapse loop can only fail by fuel exhaustion on well-shaped
children. -/
theorem collapseFrom_err (fuel : Nat) (ch : List (Option ReStackTrie)) :
    ∀ (i : Nat) (e : Err),
      (∀ c ∈ ch, ∀ x, c = some x → WFShape x) →
      collapseFrom fuel ch i = .error e → e = .outOfFuel := by
  intro i
  induction i with
  | zero => intro e _ h; exact Except.noConfusion h
  | succ i ih =>
    intro e hmem h
    unfold collapseFrom at h
    split at h
    · rename_i c hc
      split at h
      · rcases except_bind_err h with h1 | ⟨a, _, h2⟩
        · exact hashNode_err fuel c e
            (hmem (some c) (childAt_some_mem _ _ _ hc) c rfl) h1
        · exact Except.noConfusion h2
      · exact Except.noConfusion h
    · exact ih e hmem h

/-- The collapse loop never touches slots at or beyond its start index. -/
theorem collapseFrom_ok_at (fuel : Nat) (ch : List (Option ReStackTrie)) :
    ∀ (i : Nat) (ch' : List (Option ReStackTrie)),
      collapseFrom fuel ch i = .ok ch' →
      ∀ j, i ≤ j → childAt ch' j = childAt ch j := by
  intro i
  induction i with
  | zero => intro ch' h j _; rw [← Except.ok.inj h]
  | succ i ih =>
    intro ch' h j hij
    unfold collapseFrom at h
    split at h
    · split at h
      · obtain ⟨a, _, h2⟩ := except_bind_ok h
        rw [← Except.ok.inj h2]
        exact childAt_set_ne _ _ _ _ (by omega)
      · rw [← Except.ok.inj h]
    · exact ih ch' h j (by omega)

/-- On well-shaped trees, `insert` fails only with one of the three declared
diagnostics, the out-of-range runtime panic, or fuel exhaustion. -/
theorem insert_err : ∀ (fuel : Nat) (st : ReStackTrie) (keyArg value : List Nat)
    (e : Err), WFShape st → insert fuel st keyArg value = .error e →
    e = .insertIntoHash ∨ e = .insertIntoExistingKey ∨
      e = .indexOutOfRange ∨ e = .outOfFuel := by
  intro fuel
  induction fuel with
  | zero =>
    intro st keyArg value e _ h
    exact Or.inr (Or.inr (Or.inr (Except.error.inj h).symm))
  | succ fuel ih =>
    intro st keyArg value e hwf h
    obtain ⟨t, v, k, o, ch⟩ := st
    have ht : t < 5 := hwf.nodeType_lt
    have hlen : ch.length = 16 := by
      have := hwf.children_length
      simpa [ReStackTrie.children] using this
    unfold insert at h
    simp only [ReStackTrie.nodeType, ReStackTrie.val, ReStackTrie.key,
      ReStackTrie.keyOffset, ReStackTrie.children, ReStackTrie.withChildren] at h
    interval_cases t
    · -- branchNode
      rw [if_pos (by decide)] at h
      split at h
      · exact Or.inr (Or.inr (Or.inl (Except.error.inj h).symm))
      · rename_i idx hidx
        split at h
        · exact Or.inr (Or.inr (Or.inl (Except.error.inj h).symm))
        · rename_i hidx16
          set ch0 := if (childAt ch idx).isNone then
              ch.set idx (some (ReStackTrie.mk emptyNode [] [] (o + 1) nilChildren))
            else ch with hch0
          have hch0mem : ∀ c ∈ ch0, ∀ x, c = some x → WFShape x := by
            intro c hc x hcx
            rw [hch0] at hc
            split at hc
            · rcases List.mem_or_eq_of_mem_set hc with hmem | heq
              · exact hwf.child_mem c hmem x hcx
              · rw [heq] at hcx
                rw [← Option.some.inj hcx]
                exact WFShape_fresh emptyNode [] [] (o + 1) (by decide) (by decide)
            · exact hwf.child_mem c hc x hcx
          rcases except_bind_err h with h1 | ⟨ch1, hok, h2⟩
          · exact Or.inr (Or.inr (Or.inr (collapseFrom_err fuel ch0 idx e hch0mem h1)))
          · have hat : childAt ch1 idx = childAt ch0 idx :=
              collapseFrom_ok_at fuel ch0 idx ch1 hok idx (by omega)
            have hat_some : ∃ c, childAt ch0 idx = some c := by
              rw [hch0]
              cases hc : childAt ch idx with
              | none =>
                rw [if_pos (show (none : Option ReStackTrie).isNone = true from rfl)]
                refine ⟨_, childAt_set_self ch idx _ ?_⟩
                omega
              | some c =>
                rw [if_neg (by simp)]
                exact ⟨c, hc⟩
            obtain ⟨c, hc⟩ := hat_some
            rw [hat, hc] at h2
            simp only [] at h2
            have hcwf : WFShape c := hch0mem (some c) (childAt_some_mem _ _ _ hc) c rfl
            rcases except_bind_err h2 with h3 | ⟨c2, _, h4⟩
            · exact ih _ keyArg value e hcwf h3
            · exact Except.noConfusion h4
    · -- extNode
      rw [if_neg (by decide), if_pos (by decide)] at h
      rcases except_bind_err h with h1 | ⟨diffidx, hdok, h2⟩
      · exact Or.inr (Or.inr (Or.inl (getDiffIndexAux_err _ _ _ _ e h1)))
      · have hsome := hwf.ext_child (by rfl)
        simp only [ReStackTrie.children] at hsome
        split at h2
        · cases h0 : childAt ch 0 with
          | none => rw [h0] at hsome; exact Bool.noConfusion hsome
          | some c =>
            simp only [h0] at h2
            rcases except_bind_err h2 with h3 | ⟨c2, _, h4⟩
            · exact ih _ keyArg value e
                (hwf.child_at (show childAt _ 0 = some c from h0)) h3
            · exact Except.noConfusion h4
        · -- split case of the extension: the continuation is inlined into
          -- both branches of the n-choice by the do-elaborator
          split at h2
          · -- diffidx < len(st.key) - 1 : n is a freshly built extension
            rcases except_bind_err h2 with h3 | ⟨n, hn, h4⟩
            · exact Except.noConfusion h3
            · have hnwf : WFShape n := by
                rw [← Except.ok.inj hn]
                refine WFShape.mk _ _ _ _ _ (by decide) (by simp [nilChildren]) ?_ ?_
                · intro c2 hc2 x hcx
                  rcases List.mem_or_eq_of_mem_set hc2 with hmem | heq
                  · rw [List.eq_of_mem_replicate hmem] at hcx
                    exact Option.noConfusion hcx
                  · rw [heq] at hcx
                    exact hwf.child_at (show childAt _ 0 = some x from hcx)
                · intro _
                  rw [childAt_set_self _ _ _ (by simp [nilChildren])]
                  cases h0 : childAt ch 0 with
                  | none => rw [h0] at hsome; exact Bool.noConfusion hsome
                  | some c => rfl
              rcases except_bind_err h4 with h5 | ⟨nh, _, h6⟩
              · exact Or.inr (Or.inr (Or.inr (hashNode_err fuel n e hnwf h5)))
              · split at h6
                · exact Or.inr (Or.inr (Or.inl (Except.error.inj h6).symm))
                · split at h6
                  · exact Or.inr (Or.inr (Or.inl (Except.error.inj h6).symm))
                  · split at h6 <;> exact Except.noConfusion h6
          · -- diffidx = len(st.key) - 1 : n is the existing single child
            split at h2
            · rename_i h0
              rw [h0] at hsome
              exact Bool.noConfusion hsome
            · rename_i c h0
              rcases except_bind_err h2 with h3 | ⟨n, hn, h4⟩
              · exact Except.noConfusion h3
              · have hnwf : WFShape n := by
                  rw [← Except.ok.inj hn]
                  exact (hwf.child_at (show childAt _ 0 = some c from h0)).with_keyOffset _
                rcases except_bind_err h4 with h5 | ⟨nh, _, h6⟩
                · exact Or.inr (Or.inr (Or.inr (hashNode_err fuel n e hnwf h5)))
                · split at h6
                  · exact Or.inr (Or.inr (Or.inl (Except.error.inj h6).symm))
                  · split at h6
                    · exact Or.inr (Or.inr (Or.inl (Except.error.inj h6).symm))
                    · split at h6 <;> exact Except.noConfusion h6
    · -- leafNode
      rw [if_neg (by decide), if_neg (by decide), if_pos (by decide)] at h
      rcases except_bind_err h with h1 | ⟨diffidx, _, h2⟩
      · exact Or.inr (Or.inr (Or.inl (getDiffIndexAux_err _ _ _ _ e h1)))
      · split at h2
        · exact Or.inr (Or.inl (Except.error.inj h2).symm)
        · rcases except_bind_err h2 with h3 | ⟨oh, _, h4⟩
          · refine Or.inr (Or.inr (Or.inr (hashNode_err fuel _ e ?_ h3)))
            exact WFShape_fresh leafNode _ _ _ (by decide) (by decide)
          · split at h4
            · exact Or.inr (Or.inr (Or.inl (Except.error.inj h4).symm))
            · split at h4
              · exact Or.inr (Or.inr (Or.inl (Except.error.inj h4).symm))
              · split at h4 <;> exact Except.noConfusion h4
    · -- emptyNode
      rw [if_neg (by decide), if_neg (by decide), if_neg (by decide),
        if_pos (by decide)] at h
      exact Except.noConfusion h
    · -- hashedNode
      rw [if_neg (by decide), if_neg (by decide), if_neg (by decide),
        if_neg (by decide), if_pos (by decide)] at h
      exact Or.inl (Except.error.inj h).symm

/-- C6: counterexample.  The claim states TryUpdate/insert panics in exactly
three misuse cases (empty value, descent into a hashed node, duplicate key
detected by the leaf diff index).  Inserting key `0x61` after key `0x6162` —
a nonempty value, no hashed node anywhere (the trie is a single leaf), and a
diff-index computation that never completes — aborts instead with the Go
runtime's index-out-of-range panic while comparing against the leaf key,
which is none of the three diagnostics. -/
theorem c6_counterexample :
    (do
      let r1 ← TryUpdate 10 NewReStackTrie [0x61, 0x62] [120]
      TryUpdate 10 r1.1 [0x61] [121]) = Except.error Err.indexOutOfRange ∧
    Err.indexOutOfRange ≠ Err.deletionNotSupported ∧
    Err.indexOutOfRange ≠ Err.insertIntoHash ∧
    Err.indexOutOfRange ≠ Err.insertIntoExistingKey ∧
    ([121] : List Nat).length ≠ 0 :=
  ⟨rfl, by decide, by decide, by decide, by decide⟩

/-- C6: amended.  TryUpdate/insert fails loudly with its dedicated diagnostic
in each of the three claimed misuse cases — empty value, insertion into a
`hashed` node, and a leaf diff index reaching the stored key length — and, in
addition, inserting a key whose nibbles are exhausted before diverging from
the resident path aborts with an index-out-of-range runtime panic.  On
well-shaped trees these (plus exhaustion of the model's recursion fuel) are
the only failure modes: the `invalid type` and nil-dereference paths are
unreachable. -/
theorem c6_panic_cases_amended :
    (∀ (fuel : Nat) (st : ReStackTrie) (keyB value : List Nat),
      value.length = 0 →
      TryUpdate fuel st keyB value = .error .deletionNotSupported) ∧
    (∀ (fuel : Nat) (st : ReStackTrie) (keyArg value : List Nat),
      st.nodeType = hashedNode →
      insert (fuel + 1) st keyArg value = .error .insertIntoHash) ∧
    (∀ (fuel : Nat) (st : ReStackTrie) (keyArg value : List Nat) (i : Nat),
      st.nodeType = leafNode → getDiffIndex st keyArg = .ok i →
      st.key.length ≤ i →
      insert (fuel + 1) st keyArg value = .error .insertIntoExistingKey) ∧
    (∀ (fuel : Nat) (st : ReStackTrie) (keyB value : List Nat) (e : Err),
      WFShape st → TryUpdate fuel st keyB value = .error e →
      e = .deletionNotSupported ∨ e = .insertIntoHash ∨
        e = .insertIntoExistingKey ∨ e = .indexOutOfRange ∨ e = .outOfFuel) := by
  refine ⟨?_, ?_, ?_, ?_⟩
  · intro fuel st keyB value hv
    unfold TryUpdate
    rw [if_pos (by simp [hv])]
  · intro fuel st keyArg value hty
    obtain ⟨t, v, k, o, ch⟩ := st
    simp only [ReStackTrie.nodeType] at hty
    subst hty
    unfold insert
    simp only [ReStackTrie.nodeType]
    rfl
  · intro fuel st keyArg value i hty hdiff hge
    obtain ⟨t, v, k, o, ch⟩ := st
    simp only [ReStackTrie.nodeType] at hty
    simp only [ReStackTrie.key] at hge
    subst hty
    unfold insert
    simp only [ReStackTrie.nodeType]
    rw [if_neg (by decide), if_neg (by decide), if_pos (by decide)]
    rw [hdiff]
    show (if k.length ≤ i then Except.error Err.insertIntoExistingKey else _) = _
    rw [if_pos hge]
  · intro fuel st keyB value e hwf h
    unfold TryUpdate at h
    split at h
    · exact Or.inl (Except.error.inj h).symm
    · dsimp only [] at h
      rcases except_bind_err h with h1 | ⟨a, _, h2⟩
      · rcases insert_err fuel st (keybytesToHex keyB).dropLast value e hwf h1 with
          h3 | h3 | h3 | h3
        · exact Or.inr (Or.inl h3)
        · exact Or.inr (Or.inr (Or.inl h3))
        · exact Or.inr (Or.inr (Or.inr (Or.inl h3)))
        · exact Or.inr (Or.inr (Or.inr (Or.inr h3)))
      · exact Except.noConfusion h2

/-- C6 witness: each misuse case triggered at a concrete input, and the
completeness part applied to the concrete out-of-range run. -/
theorem c6_panic_cases_amended_witness :
    TryUpdate 5 NewReStackTrie [] [] = Except.error Err.deletionNotSupported ∧
    insert 5 (ReStackTrie.mk hashedNode [1] [] 0 nilChildren) [0] [7] =
      Except.error Err.insertIntoHash ∧
    insert 5 (ReStackTrie.mk leafNode [9] [1, 2] 0 nilChildren) [1, 2] [7] =
      Except.error Err.insertIntoExistingKey ∧
    (Err.indexOutOfRange = Err.deletionNotSupported ∨
      Err.indexOutOfRange = Err.insertIntoHash ∨
      Err.indexOutOfRange = Err.insertIntoExistingKey ∨
      Err.indexOutOfRange = Err.indexOutOfRange ∨
      Err.indexOutOfRange = Err.outOfFuel) :=
  ⟨c6_panic_cases_amended.1 5 NewReStackTrie [] [] rfl,
   c6_panic_cases_amended.2.1 4 (ReStackTrie.mk hashedNode [1] [] 0 nilChildren)
     [0] [7] rfl,
   c6_panic_cases_amended.2.2.1 4 (ReStackTrie.mk leafNode [9] [1, 2] 0 nilChildren)
     [1, 2] [7] 2 rfl rfl (by decide),
   c6_panic_cases_amended.2.2.2 10
     (ReStackTrie.mk leafNode [120] [6, 1, 6, 2] 0 nilChildren) [0x61] [121]
     Err.indexOutOfRange
     (WFShape_fresh leafNode [120] [6, 1, 6, 2] 0 (by decide) (by decide))
     rfl⟩

/-! ## C9 -/

theorem lor_pack_byte (a b : Nat) (ha : a < 16) (hb : b < 16) :
    ((a <<< 4) % 256) ||| (b % 256) = a * 16 + b := by
  interval_cases a <;> interval_cases b <;> rfl

theorem lor48 (a : Nat) (ha : a < 16) : 48 ||| a = 48 + a := by
  interval_cases a <;> rfl

theorem lor16 (a : Nat) (ha : a < 16) : 16 ||| a = 16 + a := by
  interval_cases a <;> rfl

theorem lor32_lor16 (a : Nat) (ha : a < 16) : (32 ||| a) ||| 16 = 48 + a := by
  interval_cases a <;> rfl

theorem lor0_lor16 (a : Nat) (ha : a < 16) : (0 ||| a) ||| 16 = 16 + a := by
  interval_cases a <;> rfl

theorem unpack_packOr : ∀ l : List Nat, (∀ x ∈ l, x < 16) → l.length % 2 = 0 →
    unpackNibbles (packNibblesOr l) = l
  | [], _, _ => rfl
  | [_], _, hl => by simp at hl
  | a :: b :: rest, h, hl => by
    have ha : a < 16 := h a (by simp)
    have hb : b < 16 := h b (by simp)
    have ih := unpack_packOr rest (fun x hx => h x (by simp [hx]))
      (by simp only [List.length_cons] at hl; omega)
    simp only [packNibblesOr, unpackNibbles, lor_pack_byte a b ha hb, ih]
    have h1 : (a * 16 + b) / 16 = a := by omega
    have h2 : (a * 16 + b) % 16 = b := by omega
    rw [h1, h2]

theorem unpack_packMul : ∀ l : List Nat, (∀ x ∈ l, x < 16) → l.length % 2 = 0 →
    unpackNibbles (packNibblesMul l) = l
  | [], _, _ => rfl
  | [_], _, hl => by simp at hl
  | a :: b :: rest, h, hl => by
    have ha : a < 16 := h a (by simp)
    have hb : b < 16 := h b (by simp)
    have ih := unpack_packMul rest (fun x hx => h x (by simp [hx]))
      (by simp only [List.length_cons] at hl; omega)
    have hm : (a * 16 + b) % 256 = a * 16 + b := by omega
    simp only [packNibblesMul, unpackNibbles, hm, ih]
    have h1 : (a * 16 + b) / 16 = a := by omega
    have h2 : (a * 16 + b) % 16 = b := by omega
    rw [h1, h2]

/-- Decoding one Hex-Prefix byte string whose head byte is `48 + a` (odd
length, terminator set) or `16 + a` (odd, no terminator). -/
theorem hpDecode_cons_odd (a : Nat) (rest : List Nat) (t : Bool) (ha : a < 16) :
    hpDecode (((if t then 48 else 16) + a) :: rest) =
      some (a :: unpackNibbles rest, t) := by
  cases t
  · show hpDecode ((16 + a) :: rest) = some (a :: unpackNibbles rest, false)
    simp [hpDecode, show ¬ (64 ≤ 16 + a) from by omega,
      show (16 + a) / 32 = 0 from by omega, show (16 + a) / 16 = 1 from by omega,
      show (16 + a) % 16 = a from by omega]
  · show hpDecode ((48 + a) :: rest) = some (a :: unpackNibbles rest, true)
    simp [hpDecode, show ¬ (64 ≤ 48 + a) from by omega,
      show (48 + a) / 32 = 1 from by omega, show (48 + a) / 16 = 3 from by omega,
      show (48 + a) % 16 = a from by omega]

/-- Decoding an even-length Hex-Prefix byte string (head byte 32 or 0). -/
theorem hpDecode_cons_even (rest : List Nat) (t : Bool) :
    hpDecode ((if t then 32 else 0) :: rest) = some (unpackNibbles rest, t) := by
  cases t <;> simp [hpDecode]

/-- The HP string emitted by `rawHPRLP` for a nonempty key decodes back to
the original nibbles and terminator flag. -/
theorem hpDecode_rawHP (K : List Nat) (t : Bool) (hne : K ≠ [])
    (h16 : ∀ x ∈ K, x < 16) : hpDecode (rawHP K t) = some (K, t) := by
  match K, hne with
  | a :: tl, _ =>
    have ha : a < 16 := h16 a (by simp)
    unfold rawHP
    rw [if_neg (by simp)]
    by_cases hodd : (a :: tl).length % 2 = 1
    · rw [if_pos hodd]
      have hflag : (16 * ((a :: tl).length % 2) ||| (if t then 32 else 0)) |||
          ((a :: tl).headD 0 % 256) = (if t then 48 else 16) + a := by
        rw [hodd, List.headD_cons, Nat.mod_eq_of_lt (show a < 256 by omega)]
        cases t
        · show (16 * 1 ||| 0) ||| a = 16 + a
          have h16e : (16 * 1 ||| 0 : Nat) = 16 := by decide
          rw [h16e, lor16 a ha]
        · show (16 * 1 ||| 32) ||| a = 48 + a
          have h48e : (16 * 1 ||| 32 : Nat) = 48 := by decide
          rw [h48e, lor48 a ha]
      rw [hflag, List.tail_cons, hpDecode_cons_odd a _ t ha,
        unpack_packOr tl (fun x hx => h16 x (by simp [hx]))
          (by simp only [List.length_cons] at hodd; omega)]
    · rw [if_neg hodd]
      have hlen0 : (a :: tl).length % 2 = 0 := by omega
      have hflag : (16 * ((a :: tl).length % 2) ||| (if t then 32 else 0)) =
          (if t then 32 else 0) := by
        rw [hlen0]; cases t <;> decide
      rw [hflag, hpDecode_cons_even _ t, unpack_packOr (a :: tl) h16 hlen0]

/-- The HP string emitted by `writeHPRLP` for any key decodes back to the
original nibbles and terminator flag. -/
theorem hpDecode_streamHP (K : List Nat) (t : Bool)
    (h16 : ∀ x ∈ K, x < 16) : hpDecode (streamHP K t) = some (K, t) := by
  unfold streamHP streamHPHead
  by_cases heven : K.length % 2 = 0
  · rw [if_pos heven, if_pos heven, hpDecode_cons_even _ t,
      List.drop_zero, unpack_packMul K h16 heven]
  · rw [if_neg heven, if_neg heven]
    match K, heven with
    | a :: tl, hodd =>
      have ha : a < 16 := h16 a (by simp)
      have hflag : (((if t then 32 else 0) ||| (a :: tl).headD 0) ||| 16) % 256 =
          (if t then 48 else 16) + a := by
        rw [List.headD_cons]
        cases t
        · show ((0 ||| a) ||| 16) % 256 = 16 + a
          rw [lor0_lor16 a ha]; omega
        · show ((32 ||| a) ||| 16) % 256 = 48 + a
          rw [lor32_lor16 a ha]; omega
      rw [hflag, List.drop_one, List.tail_cons, hpDecode_cons_odd a _ t ha]
      have htl : tl.length % 2 = 0 := by
        simp only [List.length_cons] at hodd; omega
      rw [unpack_packMul tl (fun x hx => h16 x (by simp [hx])) htl]

/-- C9: counterexample.  The claim states the emitted Hex-Prefix byte string
of every leaf/extension decodes back to the original (nibbles, terminator)
pair.  For the empty nibble sequence — produced for a leaf whenever a key
ends exactly at a branch, and covered by the spec's `HP([], true) = 0x20` —
the small encoder emits no HP byte at all: the emitted HP field is empty, an
entire leaf encoding such as `rawHPRLP([], "bb", leaf)` contains no `0x20`
byte, and the empty byte string does not decode to `([], true)`. -/
theorem c9_counterexample :
    rawHP [] true = [] ∧
    hpDecode [] = none ∧
    rawHPRLP [] [0x62, 0x62] true = [195, 130, 98, 98] ∧
    ¬ hpDecode (rawHP [] true) = some ([], true) :=
  ⟨rfl, rfl, by decide, by decide⟩

/-- C9: amended.  For every nonempty nibble sequence the small encoder's HP
byte string decodes back to exactly the original (nibbles, terminator) pair,
and the streaming encoder's HP byte string does so for every nibble sequence
including the empty one; only the small encoder's empty-key HP field (no
bytes at all) fails to decode. -/
theorem c9_hp_roundtrip_amended :
    (∀ K t, K ≠ [] → (∀ x ∈ K, x < 16) → hpDecode (rawHP K t) = some (K, t)) ∧
    (∀ K t, (∀ x ∈ K, x < 16) → hpDecode (streamHP K t) = some (K, t)) ∧
    (∀ t, rawHP [] t = []) :=
  ⟨hpDecode_rawHP, hpDecode_streamHP, fun _ => rfl⟩

/-- C9 witness: the amended round trip at concrete keys, covering odd and
even lengths, both encoders and both terminator flags. -/
theorem c9_hp_roundtrip_amended_witness :
    hpDecode (rawHP [1, 2, 3] true) = some ([1, 2, 3], true) ∧
    hpDecode (rawHP [0, 5] false) = some ([0, 5], false) ∧
    hpDecode (streamHP [7] false) = some ([7], false) ∧
    hpDecode (streamHP [] true) = some ([], true) :=
  ⟨c9_hp_roundtrip_amended.1 [1, 2, 3] true (by decide) (by decide),
   c9_hp_roundtrip_amended.1 [0, 5] false (by decide) (by decide),
   c9_hp_roundtrip_amended.2.1 [7] false (by decide),
   c9_hp_roundtrip_amended.2.1 [] true (by decide)⟩

/-! ## C10 -/

/-- C10: confirmed.  Whenever `TryUpdate` returns (rather than aborting), the
Go `error` component of its result is `nil`: no misuse is ever reported
through the error return value. -/
theorem c10_tryupdate_nil_error (fuel : Nat) (st : ReStackTrie)
    (keyB value : List Nat) (r : ReStackTrie × Option Unit)
    (h : TryUpdate fuel st keyB value = Except.ok r) : r.2 = none := by
  unfold TryUpdate at h
  split at h
  · exact absurd h (by simp)
  · dsimp only [] at h
    cases hi : insert fuel st (keybytesToHex keyB).dropLast value with
    | error e => rw [hi] at h; exact Except.noConfusion h
    | ok st' =>
      rw [hi] at h
      have h2 : (st', (none : Option Unit)) = r := Except.ok.inj h
      rw [← h2]

/-- C10 witness: the theorem applied to the completed concrete call
`TryUpdate(0x, 0x01)` on a fresh trie. -/
theorem c10_tryupdate_nil_error_witness :
    (ReStackTrie.mk leafNode [1] [] 0 nilChildren, (none : Option Unit)).2 = none :=
  c10_tryupdate_nil_error 2 NewReStackTrie [] [1] _ rfl

/-! ## C5: the left-collapsed invariant -/

/-- `get?` through a `drop`. -/
theorem get?_drop (l : List Nat) (i j : Nat) : (l.drop i).get? j = l.get? (i + j) := by
  simp [List.get?_eq_getElem?, List.getElem?_drop]

/-- `get?` through a `take`, below the cut. -/
theorem get?_take_lt (l : List Nat) (i j : Nat) (h : j < i) :
    (l.take i).get? j = l.get? j := by
  simp [List.get?_eq_getElem?, List.getElem?_take, h]

/-- A defined `get?` position is inside the list. -/
theorem get?_lt_length {l : List Nat} {n x : Nat} (h : l.get? n = some x) :
    n < l.length := by
  rw [List.get?_eq_getElem?] at h
  exact (List.getElem?_eq_some.mp h).1

/-- Every position inside the list has a defined `get?`. -/
theorem get?_some_of_lt {l : List Nat} {n : Nat} (h : n < l.length) :
    ∃ x, l.get? n = some x := by
  rw [List.get?_eq_getElem?]
  exact ⟨l[n], List.getElem?_eq_getElem h⟩

/-- Lists that agree on a prefix agree pointwise below it. -/
theorem take_agree {a b : List Nat} {i : Nat} (h : a.take i = b.take i) {j : Nat}
    (hj : j < i) : a.get? j = b.get? j := by
  rw [← get?_take_lt a i j hj, ← get?_take_lt b i j hj, h]

/-- Lists that agree on a prefix agree on every inner segment. -/
theorem drop_take_agree {a b : List Nat} {i d m : Nat} (h : a.take i = b.take i)
    (hm : d + m ≤ i) : (a.drop d).take m = (b.drop d).take m := by
  have ha : a.take (d + m) = b.take (d + m) := by
    have h2 := congrArg (List.take (d + m)) h
    simpa [List.take_take, Nat.min_eq_left hm] using h2
  rw [List.take_drop, List.take_drop, ha]

theorem hexPath_nil : hexPath [] = [] := rfl

theorem hexPath_cons (x : Nat) (l : List Nat) :
    hexPath (x :: l) = x / 16 :: x % 16 :: hexPath l := by
  have h1 : keybytesToHex (x :: l) = x / 16 :: x % 16 :: keybytesToHex l := by
    simp [keybytesToHex]
  have h2 : keybytesToHex l ≠ [] := by simp [keybytesToHex]
  rw [hexPath, h1, List.dropLast_cons_of_ne_nil (by simp [h2]),
    List.dropLast_cons_of_ne_nil h2]
  rfl

theorem hexPath_length : ∀ l : List Nat, (hexPath l).length = 2 * l.length
  | [] => rfl
  | x :: l => by
    rw [hexPath_cons]
    simp [hexPath_length l]
    omega

theorem hexPath_get?_even : ∀ (l : List Nat) (i : Nat),
    (hexPath l).get? (2 * i) = (l.get? i).map (fun x => x / 16)
  | [], i => by simp [hexPath_nil]
  | x :: l, 0 => by simp [hexPath_cons]
  | x :: l, i + 1 => by
    rw [hexPath_cons, show 2 * (i + 1) = 2 * i + 1 + 1 from by omega]
    simp only [List.get?_cons_succ]
    exact hexPath_get?_even l i

theorem hexPath_get?_odd : ∀ (l : List Nat) (i : Nat),
    (hexPath l).get? (2 * i + 1) = (l.get? i).map (fun x => x % 16)
  | [], i => by simp [hexPath_nil]
  | x :: l, 0 => by simp [hexPath_cons]
  | x :: l, i + 1 => by
    rw [hexPath_cons, show 2 * (i + 1) + 1 = 2 * i + 1 + 1 + 1 from by omega]
    simp only [List.get?_cons_succ]
    exact hexPath_get?_odd l i

theorem hexPath_take : ∀ (l : List Nat) (i : Nat),
    hexPath (l.take i) = (hexPath l).take (2 * i)
  | [], i => by rw [List.take_nil, hexPath_nil, List.take_nil]
  | x :: l, 0 => by rw [List.take_zero, hexPath_nil, Nat.mul_zero, List.take_zero]
  | x :: l, i + 1 => by
    rw [List.take_succ_cons, hexPath_cons, hexPath_cons,
      show 2 * (i + 1) = 2 * i + 1 + 1 from by omega]
    rw [List.take_succ_cons, List.take_succ_cons, hexPath_take l i]

/-- Byte-level in-order divergence yields nibble-level divergence of the
paths `insert` actually walks. -/
theorem keyDiverge_hexPath {a b : List Nat} (h : KeyDiverge 0 a b) :
    KeyDiverge 0 (hexPath a) (hexPath b) := by
  obtain ⟨i, _, htake, x, y, hx, hy, hxy⟩ := h
  have htk : (hexPath a).take (2 * i) = (hexPath b).take (2 * i) := by
    rw [← hexPath_take, ← hexPath_take, htake]
  by_cases hhi : x / 16 = y / 16
  · refine ⟨2 * i + 1, Nat.zero_le _, ?_, x % 16, y % 16, ?_, ?_, ?_⟩
    · rw [List.take_succ, List.take_succ, htk, ← List.get?_eq_getElem?,
        ← List.get?_eq_getElem?, hexPath_get?_even, hexPath_get?_even, hx, hy]
      simp [hhi]
    · rw [hexPath_get?_odd, hx]; rfl
    · rw [hexPath_get?_odd, hy]; rfl
    · have h1 := Nat.div_add_mod x 16
      have h2 := Nat.div_add_mod y 16
      omega
  · refine ⟨2 * i, Nat.zero_le _, htk, x / 16, y / 16, ?_, ?_, ?_⟩
    · rw [hexPath_get?_even, hx]; rfl
    · rw [hexPath_get?_even, hy]; rfl
    · exact Nat.lt_of_le_of_ne (Nat.div_le_div_right (Nat.le_of_lt hxy)) hhi

/-- Closed form of the diff-index loop on inputs that agree for `m` steps and
then either exhaust the stored key or differ. -/
theorem getDiffIndexAux_agree : ∀ (s : List Nat) (keyArg : List Nat) (off i m : Nat),
    (∀ j, j < m → ∃ a, s.get? j = some a ∧ keyArg.get? (off + i + j) = some a) →
    (m = s.length ∨ ∃ a b, s.get? m = some a ∧ keyArg.get? (off + i + m) = some b ∧ a ≠ b) →
    getDiffIndexAux keyArg off s i = .ok (i + m)
  | [], keyArg, off, i, m => by
    intro _ hdiv
    have hm : m = 0 := by
      rcases hdiv with h | ⟨a, b, ha, _⟩
      · simpa using h
      · exact absurd ha (by simp)
    subst hm
    rfl
  | sH :: sT, keyArg, off, i, m => by
    intro hagree hdiv
    cases m with
    | zero =>
      rcases hdiv with h | ⟨a, b, ha, hb, hne⟩
      · exact absurd h (by simp)
      · have ha2 : a = sH := by
          have := ha
          simp only [List.get?_cons_zero] at this
          exact (Option.some.inj this).symm
        have hbf : (sH == b) = false := by
          simp only [beq_eq_false_iff_ne]
          exact fun hEq => hne (ha2.trans hEq)
        unfold getDiffIndexAux
        rw [show keyArg.get? (off + i) = some b from hb]
        simp [hbf]
    | succ m2 =>
      obtain ⟨a, ha, hk⟩ := hagree 0 (Nat.succ_pos m2)
      have ha2 : a = sH := by
        simp only [List.get?_cons_zero] at ha
        exact (Option.some.inj ha).symm
      subst ha2
      unfold getDiffIndexAux
      rw [show keyArg.get? (off + i) = some a from hk]
      simp only [beq_self_eq_true, if_true]
      rw [show i + (m2 + 1) = (i + 1) + m2 from by omega]
      apply getDiffIndexAux_agree sT keyArg off (i + 1) m2
      · intro j hj
        obtain ⟨a2, ha2, hk2⟩ := hagree (j + 1) (by omega)
        exact ⟨a2, by simpa using ha2,
          by rw [show off + (i + 1) + j = off + i + (j + 1) from by omega]; exact hk2⟩
      · rcases hdiv with h | ⟨a2, b2, ha2, hb2, hne2⟩
        · exact Or.inl (by simpa using h)
        · exact Or.inr ⟨a2, b2, by simpa using ha2,
            by rw [show off + (i + 1) + m2 = off + i + (m2 + 1) from by omega]; exact hb2,
            hne2⟩

theorem childAt_nilChildren (i : Nat) : childAt nilChildren i = none := by
  unfold childAt nilChildren List.getD
  rw [List.get?_eq_getElem?, List.getElem?_replicate]
  split <;> rfl

theorem nilChildren_set_zero_none : nilChildren.set 0 none = nilChildren := rfl

/-- The collapse scan is a no-op when every slot left of the start is nil or
already hashed. -/
theorem collapseFrom_noop (fuel : Nat) (ch : List (Option ReStackTrie)) :
    ∀ i, (∀ i2, i2 < i → childAt ch i2 = none ∨
        ∃ s, childAt ch i2 = some s ∧ s.nodeType = hashedNode) →
    collapseFrom fuel ch i = .ok ch
  | 0, _ => rfl
  | i + 1, hleft => by
    unfold collapseFrom
    rcases hleft i (Nat.lt_succ_self i) with hn | ⟨s, hs, hsh⟩
    · rw [hn]
      exact collapseFrom_noop fuel ch i (fun i2 h2 => hleft i2 (Nat.lt_succ_of_lt h2))
    · simp only [hs]
      rw [hsh, if_neg (by decide)]

/-- The collapse scan stops at the first resident slot and replaces it, in
place, by a `hashed` stub carrying its hash. -/
theorem collapseFrom_hit (fuel : Nat) (ch : List (Option ReStackTrie)) (j : Nat)
    (cj : ReStackTrie) (hj : childAt ch j = some cj)
    (hnh : cj.nodeType ≠ hashedNode) :
    ∀ i, j < i → (∀ i2, j < i2 → i2 < i → childAt ch i2 = none) →
    collapseFrom fuel ch i =
      Except.bind (hashNode fuel cj) (fun hv =>
        .ok (ch.set j (some (.mk hashedNode hv [] cj.keyOffset cj.children))))
  | 0, hji, _ => absurd hji (Nat.not_lt_zero j)
  | i + 1, hji, hbet => by
    unfold collapseFrom
    by_cases hij : j = i
    · subst hij
      simp only [hj]
      rw [if_pos (bne_iff_ne.mpr hnh)]
      rfl
    · rw [hbet i (by omega) (by omega)]
      exact collapseFrom_hit fuel ch j cj hj hnh i (by omega)
        (fun i2 h2 h3 => hbet i2 h2 (by omega))

/-- Inserting into an `emptyNode` rewrites it in place into a leaf holding
the key remainder past its offset. -/
theorem insert_empty (fuel : Nat) (v k : List Nat) (o : Nat)
    (ch : List (Option ReStackTrie)) (keyArg value : List Nat) :
    insert (fuel + 1) (.mk emptyNode v k o ch) keyArg value =
      .ok (.mk leafNode value (keyArg.drop o) o ch) := by
  unfold insert
  simp only [ReStackTrie.nodeType, ReStackTrie.keyOffset, ReStackTrie.children]
  rw [if_neg (by decide), if_neg (by decide), if_neg (by decide), if_pos (by decide)]

/-- A node satisfying the path invariant is resident (not a `hashed` stub). -/
theorem Inv_nodeType {st : ReStackTrie} {d : Nat} {last : List Nat}
    (h : Inv st d last) : st.nodeType ≠ hashedNode := by
  cases h <;> simp [ReStackTrie.nodeType, leafNode, extNode, branchNode, hashedNode]

/-- The ext-key segment fits inside the path remainder. -/
theorem Inv_ext_key_le {k last : List Nat} {d : Nat}
    (hseg : (last.drop d).take k.length = k) : k.length ≤ last.length - d := by
  have h1 := congrArg List.length hseg
  simp only [List.length_take, List.length_drop] at h1
  omega

/-- The two-child branch that every split produces satisfies the invariant:
the passed sibling (at the smaller index `x`) is a `hashed` stub, and the
fresh leaf for the new key sits at the larger index `y` on the new path. -/
theorem Inv_split_branch (v2 k2 : List Nat) (d x y : Nat) (new value : List Nat)
    (stub : ReStackTrie) (hstub : stub.nodeType = hashedNode)
    (hxy : x < y) (hy16 : y < 16) (hyd : new.get? d = some y) :
    Inv (.mk branchNode v2 k2 d ((nilChildren.set x (some stub)).set y
      (some (.mk leafNode value (new.drop (d + 1)) (d + 1) nilChildren)))) d new := by
  have hlx : x < nilChildren.length := by simp [nilChildren]; omega
  have hly : y < (nilChildren.set x (some stub)).length := by simp [nilChildren]; omega
  refine Inv.branch v2 k2 d new y _ _ (by simp [nilChildren]) hyd hy16
    (childAt_set_self _ _ _ hly) (by simp [ReStackTrie.nodeType]; decide)
    (Inv.leaf value (d + 1) new) ?_ ?_
  · intro i2 hi2
    rw [childAt_set_ne _ _ _ _ (by omega)]
    by_cases hix : i2 = x
    · subst hix
      exact Or.inr ⟨stub, childAt_set_self _ _ _ hlx, hstub⟩
    · rw [childAt_set_ne _ _ _ _ (fun hEq => hix hEq.symm), childAt_nilChildren]
      exact Or.inl rfl
  · intro i2 hi2
    rw [childAt_set_ne _ _ _ _ (by omega), childAt_set_ne _ _ _ _ (by omega),
      childAt_nilChildren]

/-- A filter over `range` keeps exactly the single index where the test
holds. -/
theorem filter_range_single (p : Nat → Bool) : ∀ (n j : Nat), j < n → p j = true →
    (∀ i2, i2 < n → i2 ≠ j → p i2 = false) →
    (List.range n).filter p = [j]
  | 0, j, hj, _, _ => absurd hj (Nat.not_lt_zero j)
  | n + 1, j, hj, hpj, hother => by
    rw [List.range_succ, List.filter_append]
    by_cases hjn : j = n
    · have h1 : (List.range n).filter p = [] := by
        rw [List.filter_eq_nil_iff]
        intro a ha
        have han : a < n := List.mem_range.mp ha
        simp [hother a (by omega) (by omega)]
      rw [h1, List.nil_append]
      subst hjn
      simp [List.filter, hpj]
    · have h2 : p n = false := hother n (by omega) (fun hEq => hjn hEq.symm)
      rw [filter_range_single p n j (by omega) hpj
        (fun i2 hi2 hne => hother i2 (by omega) hne)]
      simp [List.filter, h2]

/-- Under the invariant, a branch has exactly one resident child slot: the
descent index of the last key. -/
theorem liveSlots_eq_single (ch : List (Option ReStackTrie)) (j : Nat)
    (hj : j < 16) (cj : ReStackTrie) (hcj : childAt ch j = some cj)
    (hnh : cj.nodeType ≠ hashedNode)
    (hother : ∀ i2, i2 ≠ j → childAt ch i2 = none ∨
      ∃ s, childAt ch i2 = some s ∧ s.nodeType = hashedNode) :
    liveSlots ch = [j] := by
  unfold liveSlots
  apply filter_range_single _ 16 j hj
  · rw [hcj]
    exact bne_iff_ne.mpr hnh
  · intro i2 _ hne
    rcases hother i2 hne with hn | ⟨s, hs, hsh⟩
    · rw [hn]
    · rw [hs]
      simp [hsh]

/-- The invariant implies the executable one-path check, at any fuel above
the remaining path length. -/
theorem Inv_isPathB : ∀ (f : Nat) (st : ReStackTrie) (d : Nat) (last : List Nat),
    Inv st d last → last.length - d < f → isPathB f st = true
  | 0, _, _, _, _, hf => absurd hf (Nat.not_lt_zero _)
  | f + 1, st, d, last, hinv, hf => by
    cases hinv with
    | leaf v => rfl
    | ext v k _ _ c hk hseg hc =>
      have hk1 : 1 ≤ k.length := List.length_pos.mpr hk
      have hk2 : k.length ≤ last.length - d := Inv_ext_key_le hseg
      exact Inv_isPathB f c (d + k.length) last hc (by omega)
    | branch v k _ _ j ch cj hlen hjd hj16 hcj hcjnh hcji hleft hright =>
      have hd : d < last.length := get?_lt_length hjd
      have hls : liveSlots ch = [j] := by
        apply liveSlots_eq_single ch j hj16 cj hcj hcjnh
        intro i2 hne
        rcases Nat.lt_or_ge i2 j with h2 | h2
        · exact hleft i2 h2
        · exact Or.inl (hright i2 (by omega))
      unfold isPathB
      simp only [ReStackTrie.nodeType, ReStackTrie.children]
      rw [if_pos (by decide)]
      simp only [hls, hcj]
      exact Inv_isPathB f cj (d + 1) last hcji (by omega)

/-- The common tail of the extension split: whatever stub the collapsed old
child became, the node `insert` writes back satisfies the invariant for the
new key. -/
theorem Inv_ext_split (v k : List Nat) (d i : Nat) (last new value hv0 : List Nat)
    (off0 : Nat) (ch0 : List (Option ReStackTrie)) (c : ReStackTrie)
    (x y : Nat) (st' : ReStackTrie)
    (hdi : d ≤ i) (hlt : i - d < k.length)
    (hseg : (last.drop d).take k.length = k)
    (htake : last.take i = new.take i)
    (hx : last.get? i = some x) (hy : new.get? i = some y) (hxy : x < y)
    (h : (match new.get? (i - d + d) with
      | none => Except.error Err.indexOutOfRange
      | some newIdx =>
        if 16 ≤ k.getD (i - d) 0 || 16 ≤ newIdx then Except.error Err.indexOutOfRange
        else if i - d == 0 then
          Except.ok (ReStackTrie.mk branchNode v (k.take 0) d
            ((((nilChildren.set 0 (some c)).set 0 none).set (k.getD (i - d) 0)
              (some (ReStackTrie.mk hashedNode hv0 [] off0 ch0))).set newIdx
              (some (ReStackTrie.mk leafNode value (new.drop (d + (i - d) + 1))
                (d + (i - d) + 1) nilChildren))))
        else
          Except.ok (ReStackTrie.mk extNode v (k.take (i - d)) d
            ((nilChildren.set 0 (some c)).set 0 (some (ReStackTrie.mk branchNode [] []
              (d + (i - d))
              ((nilChildren.set (k.getD (i - d) 0)
                  (some (ReStackTrie.mk hashedNode hv0 [] off0 ch0))).set newIdx
                (some (ReStackTrie.mk leafNode value (new.drop (d + (i - d) + 1))
                  (d + (i - d) + 1) nilChildren))))))))
      = Except.ok st') :
    Inv st' d new := by
  have hstub : (ReStackTrie.mk hashedNode hv0 [] off0 ch0).nodeType = hashedNode := rfl
  have hscr : new.get? (i - d + d) = some y := by
    rw [show i - d + d = i from by omega]; exact hy
  have hkx : k.get? (i - d) = some x := by
    rw [← hseg, get?_take_lt _ _ _ hlt, get?_drop, show d + (i - d) = i from by omega]
    exact hx
  have horig : k.getD (i - d) 0 = x := by
    rw [List.getD_eq_getElem?_getD, ← List.get?_eq_getElem?, hkx]
    rfl
  simp only [hscr] at h
  simp only [horig] at h
  split at h
  · exact Except.noConfusion h
  · rename_i h16
    have hy16 : y < 16 := by
      by_contra hcon
      exact h16 (by simp; omega)
    simp only [List.set_set, nilChildren_set_zero_none] at h
    by_cases hi0 : i - d = 0
    · simp only [hi0] at h
      rw [← Except.ok.inj h]
      exact Inv_split_branch v (k.take 0) d x y new value _ hstub hxy hy16
        (by rw [show d = i from by omega]; exact hy)
    · have hF : ((i - d : Nat) == 0) = false := by simpa using hi0
      simp only [hF] at h
      rw [← Except.ok.inj h]
      have hkl : (k.take (i - d)).length = i - d := by
        simp [List.length_take]
        omega
      refine Inv.ext v (k.take (i - d)) d new _ ?_ ?_ ?_
      · exact List.ne_nil_of_length_pos (by omega)
      · rw [hkl, ← drop_take_agree htake (show d + (i - d) ≤ i from by omega), ← hseg,
          List.take_take, Nat.min_eq_left (by omega)]
      · rw [hkl]
        exact Inv_split_branch [] [] (d + (i - d)) x y new value _ hstub hxy hy16
          (by rw [show d + (i - d) = i from by omega]; exact hy)

/-- `insert` preserves the left-collapsed invariant: starting from a tree
whose resident path is the previous key and inserting a key that diverges
rightward, the completed tree's resident path is the new key. -/
theorem insert_inv : ∀ (fuel : Nat) (st : ReStackTrie) (d : Nat)
    (last new value : List Nat) (st' : ReStackTrie),
    Inv st d last → KeyDiverge d last new →
    insert fuel st new value = .ok st' → Inv st' d new := by
  intro fuel
  induction fuel with
  | zero => intro st d last new value st' _ _ h; exact Except.noConfusion h
  | succ fuel ih =>
    intro st d last new value st' hinv hdiv h
    obtain ⟨i, hdi, htake, x, y, hx, hy, hxy⟩ := hdiv
    have hilen : i < last.length := get?_lt_length hx
    cases hinv with
    | leaf v =>
      unfold insert at h
      simp only [ReStackTrie.nodeType, ReStackTrie.val, ReStackTrie.key,
        ReStackTrie.keyOffset, ReStackTrie.children, getDiffIndex] at h
      rw [if_neg (by decide), if_neg (by decide), if_pos (by decide)] at h
      have hgd : getDiffIndexAux new d (last.drop d) 0 = .ok (0 + (i - d)) := by
        apply getDiffIndexAux_agree
        · intro j2 hj2
          obtain ⟨a, ha⟩ := get?_some_of_lt (show d + j2 < last.length from by omega)
          refine ⟨a, ?_, ?_⟩
          · rw [get?_drop]; exact ha
          · rw [show d + 0 + j2 = d + j2 from by omega,
              ← take_agree htake (show d + j2 < i from by omega)]
            exact ha
        · refine Or.inr ⟨x, y, ?_, ?_, Nat.ne_of_lt hxy⟩
          · rw [get?_drop, show d + (i - d) = i from by omega]; exact hx
          · rw [show d + 0 + (i - d) = i from by omega]; exact hy
      rcases except_bind_ok h with ⟨diffidx, hdok, h2⟩
      have hdeq : diffidx = i - d := by
        simpa using Except.ok.inj (hdok.symm.trans hgd)
      subst hdeq
      split at h2
      · exact Except.noConfusion h2
      · rcases except_bind_ok h2 with ⟨oh, hoh, h3⟩
        have hscr : new.get? (i - d + d) = some y := by
          rw [show i - d + d = i from by omega]; exact hy
        have hgx : (last.drop d).get? (i - d) = some x := by
          rw [get?_drop, show d + (i - d) = i from by omega]; exact hx
        have horig : (last.drop d).getD (i - d) 0 = x := by
          rw [List.getD_eq_getElem?_getD, ← List.get?_eq_getElem?, hgx]
          rfl
        simp only [hscr] at h3
        simp only [horig] at h3
        split at h3
        · exact Except.noConfusion h3
        · rename_i h16
          have hy16 : y < 16 := by
            by_contra hcon
            exact h16 (by simp; omega)
          rw [nilChildren_set_zero_none] at h3
          by_cases hi0 : i - d = 0
          · simp only [hi0] at h3
            rw [← Except.ok.inj h3]
            exact Inv_split_branch v ((last.drop d).take 0) d x y new value _ rfl hxy hy16
              (by rw [show d = i from by omega]; exact hy)
          · have hF : ((i - d : Nat) == 0) = false := by simpa using hi0
            simp only [hF] at h3
            rw [← Except.ok.inj h3]
            have hkl : ((last.drop d).take (i - d)).length = i - d := by
              simp [List.length_take, List.length_drop]
              omega
            refine Inv.ext v ((last.drop d).take (i - d)) d new _ ?_ ?_ ?_
            · exact List.ne_nil_of_length_pos (by omega)
            · rw [hkl, ← drop_take_agree htake (show d + (i - d) ≤ i from by omega)]
            · rw [hkl]
              exact Inv_split_branch [] [] (d + (i - d)) x y new value _ rfl hxy hy16
                (by rw [show d + (i - d) = i from by omega]; exact hy)
    | ext v k _ _ c hk hseg hcinv =>
      unfold insert at h
      simp only [ReStackTrie.nodeType, ReStackTrie.val, ReStackTrie.key,
        ReStackTrie.keyOffset, ReStackTrie.children, ReStackTrie.withChildren,
        getDiffIndex] at h
      rw [if_neg (by decide), if_pos (by decide)] at h
      have hkle : k.length ≤ last.length - d := Inv_ext_key_le hseg
      have hkget : ∀ j2, j2 < k.length → k.get? j2 = last.get? (d + j2) := by
        intro j2 hj2
        rw [← hseg, get?_take_lt _ _ _ hj2, get?_drop]
      have hgd : getDiffIndexAux new d k 0 = .ok (0 + min (i - d) k.length) := by
        apply getDiffIndexAux_agree
        · intro j2 hj2
          have hj2a : j2 < i - d := lt_of_lt_of_le hj2 (Nat.min_le_left _ _)
          have hj2b : j2 < k.length := lt_of_lt_of_le hj2 (Nat.min_le_right _ _)
          obtain ⟨a, ha⟩ := get?_some_of_lt (show d + j2 < last.length from by omega)
          refine ⟨a, ?_, ?_⟩
          · rw [hkget j2 hj2b]; exact ha
          · rw [show d + 0 + j2 = d + j2 from by omega,
              ← take_agree htake (show d + j2 < i from by omega)]
            exact ha
        · rcases Nat.lt_or_ge (i - d) k.length with hlt | hge
          · refine Or.inr ⟨x, y, ?_, ?_, Nat.ne_of_lt hxy⟩
            · rw [show min (i - d) k.length = i - d from by omega, hkget _ hlt,
                show d + (i - d) = i from by omega]
              exact hx
            · rw [show min (i - d) k.length = i - d from by omega,
                show d + 0 + (i - d) = i from by omega]
              exact hy
          · exact Or.inl (by omega)
      rcases except_bind_ok h with ⟨diffidx, hdok, h2⟩
      have hdeq : diffidx = min (i - d) k.length := by
        simpa using Except.ok.inj (hdok.symm.trans hgd)
      subst hdeq
      have hch0 : childAt (nilChildren.set 0 (some c)) 0 = some c :=
        childAt_set_self _ _ _ (by simp [nilChildren])
      split at h2
      · -- the new key runs through the whole extension key: descend
        rename_i hbeq
        have hge : k.length ≤ i - d := by
          simp only [beq_iff_eq] at hbeq
          omega
        simp only [hch0] at h2
        rcases except_bind_ok h2 with ⟨c2, hc2, h3⟩
        have hinvc2 : Inv c2 (d + k.length) new :=
          ih c (d + k.length) last new value c2 hcinv
            ⟨i, by omega, htake, x, y, hx, hy, hxy⟩ hc2
        rw [← Except.ok.inj h3, List.set_set]
        exact Inv.ext v k d new c2 hk
          (by rw [← drop_take_agree htake (by omega)]; exact hseg) hinvc2
      · -- the new key leaves the extension key early: split it
        rename_i hbeq
        have hlt : i - d < k.length := by
          simp only [beq_iff_eq] at hbeq
          omega
        have hmin : min (i - d) k.length = i - d := by omega
        rw [hmin] at h2
        split at h2
        · -- the extension keeps at least one nibble below the split
          rcases except_bind_ok h2 with ⟨n, hn, h3⟩
          have hnn := Except.ok.inj hn
          subst hnn
          rcases except_bind_ok h3 with ⟨nh, hnh, h4⟩
          exact Inv_ext_split v k d i last new value _ _ _ c x y st'
            hdi hlt hseg htake hx hy hxy h4
        · -- the split eats the last extension nibble: reuse the old child
          simp only [hch0] at h2
          rcases except_bind_ok h2 with ⟨n, hn, h3⟩
          have hnn := Except.ok.inj hn
          subst hnn
          rcases except_bind_ok h3 with ⟨nh, hnh, h4⟩
          exact Inv_ext_split v k d i last new value _ _ _ c x y st'
            hdi hlt hseg htake hx hy hxy h4
    | branch v k _ _ j ch cj hlen hjd hj16 hcj hcjnh hcjinv hleft hright =>
      unfold insert at h
      simp only [ReStackTrie.nodeType, ReStackTrie.val, ReStackTrie.key,
        ReStackTrie.keyOffset, ReStackTrie.children, ReStackTrie.withChildren] at h
      rw [if_pos (by decide)] at h
      by_cases hid : i = d
      · -- the keys diverge right here: open a fresh slot to the right
        have hyd : new.get? d = some y := hid ▸ hy
        have hjx : j = x := Option.some.inj (hjd.symm.trans (hid ▸ hx))
        have hjy : j < y := by omega
        simp only [hyd] at h
        split at h
        · exact Except.noConfusion h
        · rename_i hy16n
          have hchy : childAt ch y = none := hright y hjy
          rw [if_pos (show (childAt ch y).isNone = true from by rw [hchy]; rfl)] at h
          rw [collapseFrom_hit fuel (ch.set y (some (ReStackTrie.mk emptyNode [] [] (d + 1)
              nilChildren))) j cj
            (by rw [childAt_set_ne _ _ _ _ (by omega)]; exact hcj) hcjnh y hjy
            (fun i2 h2a h3a => by
              rw [childAt_set_ne _ _ _ _ (by omega)]
              exact hright i2 h2a)] at h
          rcases except_bind_ok h with ⟨ch1, hch1, h2⟩
          rcases except_bind_ok hch1 with ⟨hv, hvv, hf1⟩
          have hch1e := Except.ok.inj hf1
          subst hch1e
          have hchy2 : childAt (((ch.set y (some (ReStackTrie.mk emptyNode [] [] (d + 1)
              nilChildren))).set j
              (some (ReStackTrie.mk hashedNode hv [] cj.keyOffset cj.children)))) y =
              some (ReStackTrie.mk emptyNode [] [] (d + 1) nilChildren) := by
            rw [childAt_set_ne _ _ _ _ (by omega),
              childAt_set_self _ _ _ (by rw [hlen]; omega)]
          simp only [hchy2] at h2
          rcases except_bind_ok h2 with ⟨c2, hc2, h3⟩
          cases fuel with
          | zero => exact Except.noConfusion hc2
          | succ f2 =>
            rw [insert_empty] at hc2
            have hc2e := Except.ok.inj hc2
            subst hc2e
            rw [← Except.ok.inj h3]
            refine Inv.branch v k d new y _ _ ?_ hyd ?_ ?_ ?_
              (Inv.leaf value (d + 1) new) ?_ ?_
            · simp [List.length_set, hlen]
            · omega
            · exact childAt_set_self _ _ _ (by simp [List.length_set, hlen]; omega)
            · simp [ReStackTrie.nodeType]
              decide
            · intro i2 hi2
              rw [childAt_set_ne _ _ _ _ (by omega)]
              by_cases hij2 : i2 = j
              · subst hij2
                rw [childAt_set_self _ _ _ (by simp [List.length_set, hlen]; omega)]
                exact Or.inr ⟨_, rfl, rfl⟩
              · rw [childAt_set_ne _ _ _ _ (fun hEq => hij2 hEq.symm),
                  childAt_set_ne _ _ _ _ (by omega)]
                rcases Nat.lt_or_ge i2 j with hlt2 | hge2
                · exact hleft i2 hlt2
                · exact Or.inl (hright i2 (by omega))
            · intro i2 hi2
              rw [childAt_set_ne _ _ _ _ (by omega), childAt_set_ne _ _ _ _ (by omega),
                childAt_set_ne _ _ _ _ (by omega)]
              exact hright i2 (by omega)
      · -- the keys still agree here: descend into the resident child
        have hdlt : d < i := by omega
        have hnd : new.get? d = some j := by
          rw [← take_agree htake hdlt]; exact hjd
        simp only [hnd] at h
        rw [if_neg (by omega)] at h
        rw [if_neg (show ¬((childAt ch j).isNone = true) from by rw [hcj]; simp)] at h
        rw [collapseFrom_noop fuel ch j hleft] at h
        rcases except_bind_ok h with ⟨ch1, hch1, h2⟩
        have hch1e := Except.ok.inj hch1
        subst hch1e
        simp only [hcj] at h2
        rcases except_bind_ok h2 with ⟨c2, hc2, h3⟩
        have hinv2 : Inv c2 (d + 1) new :=
          ih cj (d + 1) last new value c2 hcjinv
            ⟨i, by omega, htake, x, y, hx, hy, hxy⟩ hc2
        rw [← Except.ok.inj h3]
        refine Inv.branch v k d new j _ _ (by simp [List.length_set, hlen]) hnd hj16
          (childAt_set_self _ _ _ (by rw [hlen]; omega)) (Inv_nodeType hinv2) hinv2 ?_ ?_
        · intro i2 hi2
          rw [childAt_set_ne _ _ _ _ (by omega)]
          exact hleft i2 hi2
        · intro i2 hi2
          rw [childAt_set_ne _ _ _ _ (by omega)]
          exact hright i2 hi2

/-- `TryUpdate` preserves the invariant under the in-order discipline. -/
theorem TryUpdate_inv (fuel : Nat) (st st' : ReStackTrie) (prevK newK value : List Nat)
    (r : Option Unit) (hinv : Inv st 0 (hexPath prevK)) (hord : KeyDiverge 0 prevK newK)
    (h : TryUpdate fuel st newK value = .ok (st', r)) : Inv st' 0 (hexPath newK) := by
  unfold TryUpdate at h
  split at h
  · exact Except.noConfusion h
  · rcases except_bind_ok h with ⟨st1, hins, h2⟩
    have he : st1 = st' := congrArg Prod.fst (Except.ok.inj h2)
    exact he ▸ insert_inv fuel st 0 (hexPath prevK) (hexPath newK) value st1 hinv
      (keyDiverge_hexPath hord) hins

/-- The first `TryUpdate` on a fresh trie leaves a single leaf, which
satisfies the invariant for its own key. -/
theorem TryUpdate_fresh (fuel : Nat) (st' : ReStackTrie) (keyB value : List Nat)
    (r : Option Unit) (h : TryUpdate fuel NewReStackTrie keyB value = .ok (st', r)) :
    Inv st' 0 (hexPath keyB) := by
  unfold TryUpdate at h
  split at h
  · exact Except.noConfusion h
  · rcases except_bind_ok h with ⟨st1, hins, h2⟩
    have he : st1 = st' := congrArg Prod.fst (Except.ok.inj h2)
    cases fuel with
    | zero => exact Except.noConfusion hins
    | succ f2 =>
      unfold NewReStackTrie at hins
      rw [insert_empty] at hins
      have he2 := Except.ok.inj hins
      rw [← he, ← he2]
      exact Inv.leaf value 0 (hexPath keyB)

/-- Folding in-order updates over any start tree that satisfies the
invariant yields a tree that satisfies it for one of the keys. -/
theorem buildTrie_fold_inv (fuel : Nat) :
    ∀ (pairs : List (List Nat × List Nat)) (st0 st' : ReStackTrie) (prevK : List Nat),
    Inv st0 0 (hexPath prevK) →
    OrderedKeys (prevK :: pairs.map Prod.fst) →
    pairs.foldlM (fun s kv => (TryUpdate fuel s kv.1 kv.2).map Prod.fst) st0 = .ok st' →
    ∃ lastK, Inv st' 0 (hexPath lastK)
  | [], st0, st', prevK => by
    intro hinv _ h
    rw [List.foldlM_nil] at h
    exact ⟨prevK, (Except.ok.inj h) ▸ hinv⟩
  | kv :: rest, st0, st', prevK => by
    intro hinv hord h
    rw [List.foldlM_cons] at h
    rcases except_bind_ok h with ⟨st1, h1, h2⟩
    cases htu : TryUpdate fuel st0 kv.1 kv.2 with
    | error e =>
      rw [htu] at h1
      exact Except.noConfusion h1
    | ok pr =>
      rw [htu] at h1
      obtain ⟨p1, p2⟩ := pr
      have hp : p1 = st1 := Except.ok.inj h1
      have hord2 : KeyDiverge 0 prevK kv.1 ∧ OrderedKeys (kv.1 :: rest.map Prod.fst) := hord
      have hinv1 : Inv st1 0 (hexPath kv.1) :=
        hp ▸ TryUpdate_inv fuel st0 p1 prevK kv.1 kv.2 p2 hinv hord2.1 htu
      exact buildTrie_fold_inv fuel rest st1 st' kv.1 hinv1 hord2.2 h2

/-- C5: after every completed in-order build (distinct keys in strictly
increasing byte order, each diverging from its predecessor, which is the
only order in which the calls complete), the resident tree is one path:
every branch node on it has exactly one non-`hashed` child — the slot of
the current descent path — so all children at smaller nibble indices are
`hashed` stubs (or nil), as the spec's left-collapsed invariant states. -/
theorem c5_left_collapsed (fuel : Nat) (pairs : List (List Nat × List Nat))
    (st : ReStackTrie) (hord : OrderedKeys (pairs.map Prod.fst))
    (hok : buildTrie fuel pairs = .ok st) :
    ∃ n, isPathB n st = true := by
  cases pairs with
  | nil =>
    unfold buildTrie at hok
    rw [List.foldlM_nil] at hok
    rw [← Except.ok.inj hok]
    exact ⟨1, rfl⟩
  | cons kv rest =>
    unfold buildTrie at hok
    rw [List.foldlM_cons] at hok
    rcases except_bind_ok hok with ⟨st1, h1, h2⟩
    cases htu : TryUpdate fuel NewReStackTrie kv.1 kv.2 with
    | error e =>
      rw [htu] at h1
      exact Except.noConfusion h1
    | ok pr =>
      rw [htu] at h1
      obtain ⟨p1, p2⟩ := pr
      have hp : p1 = st1 := Except.ok.inj h1
      have hinv1 : Inv st1 0 (hexPath kv.1) :=
        hp ▸ TryUpdate_fresh fuel p1 kv.1 kv.2 p2 htu
      have hordr : OrderedKeys (kv.1 :: rest.map Prod.fst) := hord
      obtain ⟨lastK, hinv2⟩ := buildTrie_fold_inv fuel rest st1 st kv.1 hinv1 hordr h2
      exact ⟨(hexPath lastK).length + 1, Inv_isPathB _ st 0 (hexPath lastK) hinv2 (by omega)⟩

/-- C5 witness: the three-key in-order build `0x10 ↦ "a"`, `0x20 ↦ "b"`,
`0x30 ↦ "c"` completes, and the theorem yields the one-path shape of its
resident tree (two hashed stubs left of the live leaf in the root branch). -/
theorem c5_left_collapsed_witness :
    ∃ st, buildTrie 9 [([16], [97]), ([32], [98]), ([48], [99])] = Except.ok st ∧
      ∃ n, isPathB n st = true := by
  have hord : OrderedKeys ([([16], [97]), ([32], [98]), ([48], [99])].map
      (Prod.fst (α := List Nat) (β := List Nat))) :=
    ⟨⟨0, Nat.le_refl 0, rfl, 16, 32, rfl, rfl, by decide⟩,
     ⟨0, Nat.le_refl 0, rfl, 32, 48, rfl, rfl, by decide⟩, trivial⟩
  cases hok : buildTrie 9 [([16], [97]), ([32], [98]), ([48], [99])] with
  | error e =>
    have hko : exceptIsOk (buildTrie 9 [([16], [97]), ([32], [98]), ([48], [99])]) = true := by
      decide
    rw [hok] at hko
    exact Bool.noConfusion hko
  | ok st =>
    exact ⟨st, rfl, c5_left_collapsed 9 [([16], [97]), ([32], [98]), ([48], [99])] st hord hok⟩

end StackTrie
